import Mathlib

/-!
# Verification of the chview lineage core

A shallow embedding of `chview.lineage.parser`, `chview.lineage.graph` and
`chview.lineage.layout`, together with theorems settling the specification
claims about them.

Python strings are modelled as Lean `String` / `List Char`; Python dicts as
association lists with replace-or-append update (preserving insertion order,
as Python dicts do); Python sets that are only tested for membership as lists
with add-if-absent; Python floats as `ℚ` (all arithmetic performed by the
layout engine is exact on dyadic rationals, so `ℚ` is a faithful model);
recursions that Python bounds dynamically are given explicit fuel, with the
fuel chosen from an a-priori bound and proved sufficient where a claim
depends on termination.
-/

namespace Chview

/-! ## Character classes (Python `re` `\w`, `\s` over ASCII SQL text) -/

/-- Python's backtick character, kept out of literals. -/
def btick : Char := Char.ofNat 96

/-- `\w`: ASCII word character `[a-zA-Z0-9_]`. -/
def isWordCharB (c : Char) : Bool := c.isAlpha || c.isDigit || c = '_'

/-- `\s` over ASCII: space, tab, newline, carriage return, vertical tab, form feed. -/
def isSpaceB (c : Char) : Bool :=
  c = ' ' || c = '\t' || c = '\n' || c = '\r' || c = Char.ofNat 11 || c = Char.ofNat 12

/-- `[a-zA-Z_]`: legal first character of a bare identifier. -/
def isIdentStartB (c : Char) : Bool := c.isAlpha || c = '_'

/-- A `\b` word boundary holds before a word character when the preceding
character (`none` at the start of the text) is absent or not a word character. -/
def boundaryOk : Option Char → Bool
  | none => true
  | some c => !(isWordCharB c)

/-- Case-insensitively consume the (lowercase) keyword `kw` from the front of
`s`, returning the remainder on success. -/
def stripPrefixCI : List Char → List Char → Option (List Char)
  | [], s => some s
  | _ :: _, [] => none
  | k :: ks, c :: s => if c.toLower = k then stripPrefixCI ks s else none

/-! ## `parser.py` -/

/-- Does `\bAS\s+SELECT\b` match starting exactly at the head of `s`?  (The
left boundary is checked by the caller.)  `\s+` is one or more whitespace
characters; since `SELECT` starts with a non-space character, the greedy
match consumes the maximal whitespace run. -/
def asSelectHere (s : List Char) : Bool :=
  match stripPrefixCI ['a', 's'] s with
  | none => false
  | some r1 =>
    let r2 := r1.dropWhile isSpaceB
    if r2.length = r1.length then false
    else
      match stripPrefixCI ['s', 'e', 'l', 'e', 'c', 't'] r2 with
      | none => false
      | some r3 => boundaryOk r3.head?

/-- `re.search(r"\bAS\s+SELECT\b", ...)`: return the suffix of the text
starting at the leftmost match (i.e. `create_query[match.start():]`), or
`none` when there is no match.  `prev` is the character just before the
current position. -/
def findAsSelect : Option Char → List Char → Option (List Char)
  | _, [] => none
  | prev, c :: rest =>
    if boundaryOk prev && asSelectHere (c :: rest) then some (c :: rest)
    else findAsSelect (some c) rest

/-- One identifier of the table pattern: a backtick-quoted run of one or more
non-backtick characters, or a bare `[a-zA-Z_]\w*` identifier.  Returns the
matched text (quotes included) and the remainder. -/
def parseIdent : List Char → Option (List Char × List Char)
  | [] => none
  | c :: s =>
    if c = btick then
      let inner := s.takeWhile (fun d => d ≠ btick)
      match s.dropWhile (fun d => d ≠ btick) with
      | d :: rest => if inner.isEmpty then none else some (c :: inner ++ [d], rest)
      | [] => none
    else if isIdentStartB c then
      some (c :: s.takeWhile isWordCharB, s.dropWhile isWordCharB)
    else none

/-- The table pattern
`(?:¤[^¤]+¤|[a-zA-Z_]\w*)(?:\.(?:¤[^¤]+¤|[a-zA-Z_]\w*))?` (with `¤` standing
for a backtick in this comment): an identifier optionally followed by a dot
and a second identifier; when the dot is present but no identifier follows,
the optional group matches empty, as in the regex. -/
def parseTableRef (s : List Char) : Option (List Char × List Char) :=
  match parseIdent s with
  | none => none
  | some (id1, rest) =>
    match rest with
    | c :: rest2 =>
      if c = '.' then
        match parseIdent rest2 with
        | some (id2, rest3) => some (id1 ++ c :: id2, rest3)
        | none => some (id1, rest)
      else some (id1, rest)
    | [] => some (id1, rest)

/-- Match `\bKW\s+(table_pattern)` at the head of `s` (left boundary already
checked), returning the capture group and the remainder after the match. -/
def matchKwAt (kw : List Char) (s : List Char) : Option (List Char × List Char) :=
  match stripPrefixCI kw s with
  | none => none
  | some r1 =>
    let r2 := r1.dropWhile isSpaceB
    if r2.length = r1.length then none
    else parseTableRef r2

/-- `re.finditer(r"\bKW\s+(table_pattern)", ...)`: all non-overlapping
leftmost matches, scanning left to right and resuming after each match.
`fuel` bounds the number of scanning steps; each step strictly shortens the
remaining text, so `s.length + 1` steps always suffice. -/
def findRefsF (kw : List Char) : Nat → Option Char → List Char → List String
  | 0, _, _ => []
  | Nat.succ fuel, prev, s =>
    match s with
    | [] => []
    | c :: rest =>
      if boundaryOk prev then
        match matchKwAt kw (c :: rest) with
        | some (g, rest') => String.mk g :: findRefsF kw fuel g.getLast? rest'
        | none => findRefsF kw fuel (some c) rest
      else findRefsF kw fuel (some c) rest

/-- All capture groups of `\bKW\s+(table_pattern)` over `s`. -/
def findRefs (kw : List Char) (s : List Char) : List String :=
  findRefsF kw (s.length + 1) none s

/-- `_qualify_table_name`: strip backticks, trim surrounding whitespace, and
prepend the default database when the reference holds no dot. -/
def qualifyTableName (ref : String) (default_database : String) : String :=
  let r0 := ref.data.filter (fun d => d ≠ btick)
  let r := ((r0.dropWhile isSpaceB).reverse.dropWhile isSpaceB).reverse
  if '.' ∈ r then String.mk r
  else default_database ++ ("." ++ String.mk r)

/-- The qualified `FROM` captures followed by the qualified `JOIN` captures of
the select part. -/
def extractSources (sel : List Char) (mv_database : String) : List String :=
  ((findRefs ("from").data sel).map (fun r => qualifyTableName r mv_database)) ++
    ((findRefs ("join").data sel).map (fun r => qualifyTableName r mv_database))

/-- The qualified source references of `create_query` before deduplication:
empty when `\bAS\s+SELECT\b` does not occur, otherwise the `FROM` and `JOIN`
captures of the suffix starting at its first occurrence. -/
def rawSources (create_query mv_database : String) : List String :=
  match findAsSelect none create_query.data with
  | none => []
  | some sel => extractSources sel mv_database

/-- `parse_source_tables`: deduplicate (Python builds a `set`) and sort. -/
def parse_source_tables (create_query mv_database : String) : List String :=
  List.insertionSort (· ≤ ·) (rawSources create_query mv_database).dedup

/-- `parse_target_table`: the first `\bTO\s+(table_pattern)` match qualified,
with `is_implicit = false`; when absent, the synthetic inner-table name with
`is_implicit = true`. -/
def parse_target_table (create_query mv_database mv_name : String) : String × Bool :=
  match (findRefs ("to").data create_query.data).head? with
  | some g => (qualifyTableName g mv_database, false)
  | none =>
    (mv_database ++ ("." ++ (String.mk [btick] ++ (".inner." ++ (mv_name ++ String.mk [btick])))), true)

/-- The character just before the current scanning position, given the
character `prev` before the consumed prefix `pre`. -/
def lastOpt (prev : Option Char) (pre : List Char) : Option Char :=
  match pre.getLast? with
  | some c => some c
  | none => prev

/-- Modelled from the spec claim for C9, not from the source: does the token
`SELECT` (case-insensitive, word boundaries on both sides) occur anywhere in
the text, `prev` being the character before its head? -/
def selectHere (s : List Char) : Bool :=
  match stripPrefixCI ['s', 'e', 'l', 'e', 'c', 't'] s with
  | none => false
  | some r => boundaryOk r.head?

/-- Modelled from the spec claim for C9: scan for a `SELECT` token. -/
def hasSelectToken : Option Char → List Char → Bool
  | _, [] => false
  | prev, c :: rest =>
    (boundaryOk prev && selectHere (c :: rest)) || hasSelectToken (some c) rest

/-- Modelled from the spec claim for C9: the token `AS` starts here (right
boundary included) and the token `SELECT` occurs somewhere later, any
characters in between. -/
def asSelectClaimHere (s : List Char) : Bool :=
  match stripPrefixCI ['a', 's'] s with
  | none => false
  | some r1 => boundaryOk r1.head? && hasSelectToken (some 's') r1

/-- Modelled from the spec claim for C9: the suffix starting at the first
occurrence of `AS` followed — at any distance — by `SELECT`. -/
def findAsSelectClaim : Option Char → List Char → Option (List Char)
  | _, [] => none
  | prev, c :: rest =>
    if boundaryOk prev && asSelectClaimHere (c :: rest) then some (c :: rest)
    else findAsSelectClaim (some c) rest

/-- Modelled from the spec claim for C9: `parse_source_tables` as the claim
describes it, with any characters allowed between `AS` and `SELECT`; the rest
of the pipeline is the code's. -/
def parse_source_tables_claimC9 (create_query mv_database : String) : List String :=
  match findAsSelectClaim none create_query.data with
  | none => []
  | some sel => List.insertionSort (· ≤ ·) (extractSources sel mv_database).dedup

/-! ## `graph.py`: data model -/

/-- `TableNode`: a table or materialized view in the lineage graph. -/
structure TableNode where
  database : String
  name : String
  engine : String
  full_name : String
deriving DecidableEq, Repr

/-- The `TableNode` constructor as `build_lineage` always invokes it: the
dataclass `__post_init__` fills `full_name` from `database` and `name`. -/
def mkTableNode (database name engine : String) : TableNode :=
  ⟨database, name, engine, database ++ ("." ++ name)⟩

/-- `LineageEdge`: one data-flow edge, tagged with the view that produced it. -/
structure LineageEdge where
  source : String
  target : String
  mv_name : String
deriving DecidableEq, Repr

/-- `LineageGraph`.  `nodes` is a Python dict modelled as an association list
in insertion order; `mv_names` and `target_names` are Python sets modelled as
duplicate-free lists. -/
structure LineageGraph where
  nodes : List (String × TableNode)
  edges : List LineageEdge
  mv_names : List String
  target_names : List String
deriving DecidableEq, Repr

/-- Lookup in an association list (Python `k in d` / `d[k]` / `d.get(k)`). -/
def lookupA {κ α : Type} [DecidableEq κ] : List (κ × α) → κ → Option α
  | [], _ => none
  | (k, v) :: t, k' => if k = k' then some v else lookupA t k'

/-- Python dict assignment `d[k] = v`: replace in place when the key exists,
append otherwise (dicts preserve the original insertion position). -/
def updateAssoc {κ α : Type} [DecidableEq κ] : List (κ × α) → κ → α → List (κ × α)
  | [], k, v => [(k, v)]
  | (k', v') :: t, k, v => if k' = k then (k, v) :: t else (k', v') :: updateAssoc t k v

/-- Python `set.add` on a set modelled as a duplicate-free list. -/
def addSet (l : List String) (x : String) : List String :=
  if x ∈ l then l else l ++ [x]

/-- One row of the materialized-view dataframe.  The dependency columns are
`some` when the cell is list-like (the only shape `build_lineage` merges) and
`none` otherwise. -/
structure MVRecord where
  database : String
  name : String
  create_table_query : String
  dependencies_database : Option (List String)
  dependencies_table : Option (List String)
deriving DecidableEq, Repr

/-- One row of the schema dataframe; `engine` is `none` when the column is
missing (`row.get("engine", "Unknown")`). -/
structure SchemaRecord where
  database : String
  name : String
  engine : Option String
deriving DecidableEq, Repr

/-! ## `graph.py`: `build_lineage` -/

/-- The engine lookup built from the schema dataframe (later rows overwrite
earlier ones, as repeated dict assignment does). -/
def buildEngineLookup (schema_rows : List SchemaRecord) : List (String × String) :=
  schema_rows.foldl
    (fun acc row => updateAssoc acc (row.database ++ ("." ++ row.name)) (row.engine.getD "Unknown"))
    []

/-- `sources` after merging the explicit ClickHouse dependency metadata into
the parsed sources: append each `dep_db.dep_tbl` not already present, in
order, when both dependency cells are list-like. -/
def mergeDependencies (row : MVRecord) (sources0 : List String) : List String :=
  match row.dependencies_database, row.dependencies_table with
  | some deps_db, some deps_table =>
    (deps_db.zip deps_table).foldl
      (fun acc dep =>
        let dep_full := dep.1 ++ ("." ++ dep.2)
        if dep_full ∈ acc then acc else acc ++ [dep_full])
      sources0
  | _, _ => sources0

/-- `source.split(".", 1)` driving the `TableNode` constructor arguments:
database and name from the first dot, or the view's database when there is
no dot. -/
def splitNodeName (full mv_database : String) : String × String :=
  let pre := full.data.takeWhile (fun c => c ≠ '.')
  match full.data.dropWhile (fun c => c ≠ '.') with
  | _ :: post => (String.mk pre, String.mk post)
  | [] => (mv_database, full)

/-- The body of the `for source in sources:` loop: register the source node
when absent, then append the source-to-view edge. -/
def addSourceStep (engineLookup : List (String × String)) (mv_full_name db : String)
    (g : LineageGraph) (source : String) : LineageGraph :=
  let g' : LineageGraph :=
    if (lookupA g.nodes source).isSome then g
    else
      let sp := splitNodeName source db
      let actual_engine := (lookupA engineLookup source).getD ("Source")
      { g with nodes := updateAssoc g.nodes source (mkTableNode sp.1 sp.2 actual_engine) }
  { g' with edges := g'.edges ++ [⟨source, mv_full_name, mv_full_name⟩] }

/-- The target half of the loop body: register the target node when absent,
add the target name, and append the view-to-target edge. -/
def addTargetStep (engineLookup : List (String × String)) (mv_full_name db : String)
    (g : LineageGraph) (t : String × Bool) : LineageGraph :=
  let g' : LineageGraph :=
    if (lookupA g.nodes t.1).isSome then g
    else
      let sp := splitNodeName t.1 db
      let actual_engine :=
        match lookupA engineLookup t.1 with
        | some e => e
        | none => if t.2 then ("implicit") else ("target")
      { g with nodes := updateAssoc g.nodes t.1 (mkTableNode sp.1 sp.2 actual_engine) }
  { g' with
    target_names := addSet g'.target_names t.1
    edges := g'.edges ++ [⟨mv_full_name, t.1, mv_full_name⟩] }

/-- The body of `build_lineage`'s per-row loop. -/
def processRecord (engineLookup : List (String × String)) (g : LineageGraph)
    (row : MVRecord) : LineageGraph :=
  let db := row.database
  let mv_full_name := db ++ ("." ++ row.name)
  let g1 : LineageGraph :=
    { g with
      nodes := updateAssoc g.nodes mv_full_name (mkTableNode db row.name ("MaterializedView"))
      mv_names := addSet g.mv_names mv_full_name }
  let sources := mergeDependencies row (parse_source_tables row.create_table_query db)
  let g2 := sources.foldl (addSourceStep engineLookup mv_full_name db) g1
  addTargetStep engineLookup mv_full_name db g2
    (parse_target_table row.create_table_query db row.name)

/-- `build_lineage`: fold the per-row step over the view rows, starting from
the empty graph, with the engine lookup built once from the schema rows (an
absent or empty schema dataframe yields the empty lookup either way). -/
def build_lineage (mv_rows : List MVRecord) (schema_rows : Option (List SchemaRecord)) :
    LineageGraph :=
  (mv_rows.foldl (processRecord (buildEngineLookup (schema_rows.getD []))) ⟨[], [], [], []⟩)

/-! ## `layout.py`: adjacency and topological levels -/

/-- `downstream.get(n, [])`: the targets of the edges whose source is `n`, in
edge order (exactly what the `setdefault`/`append` loop builds). -/
def downstreamOf (g : LineageGraph) (n : String) : List String :=
  (g.edges.filter (fun e => e.source = n)).map (fun e => e.target)

/-- `upstream.get(n, [])` / `incoming_map.get(n, [])` / the `incoming`
comprehension of `get_level`: the sources of the edges whose target is `n`. -/
def upstreamOf (g : LineageGraph) (n : String) : List String :=
  (g.edges.filter (fun e => e.target = n)).map (fun e => e.source)

/-- The mutable state of the memoized `get_level` recursion. -/
structure LevelState where
  levels : List (String × Nat)
  visiting : List String
deriving DecidableEq, Repr

/-- The left-to-right fold computing `max(get_level(parent) for parent in
incoming)` while threading the shared mutable state, for an arbitrary
level-computing function `f`.  Python's `max` over a nonempty generator of
natural numbers equals this fold from 0. -/
def foldLevels (f : String → LevelState → Option (Nat × LevelState))
    (ps : List String) (acc : Option (Nat × LevelState)) : Option (Nat × LevelState) :=
  ps.foldl
    (fun acc q =>
      match acc with
      | none => none
      | some ms =>
        match f q ms.2 with
        | none => none
        | some ls => some (max ms.1 ls.1, ls.2))
    acc

/-- `get_level`, with explicit fuel bounding the recursion depth.  A node with
a memoized level returns it; a node already being resolved is assigned level
0 (cycle break); otherwise the node is marked as visiting, the maximum of its
parents' levels is computed left to right through the shared state, the
node's level is written (overwriting a cycle-break 0 written during the
nested calls, as the Python assignment does), and the visiting mark is
removed. -/
def getLevel (g : LineageGraph) : Nat → String → LevelState → Option (Nat × LevelState)
  | 0, _, _ => none
  | Nat.succ fuel, n, st =>
    match lookupA st.levels n with
    | some l => some (l, st)
    | none =>
      if n ∈ st.visiting then
        some (0, ⟨updateAssoc st.levels n 0, st.visiting⟩)
      else
        let st1 : LevelState := ⟨st.levels, n :: st.visiting⟩
        match upstreamOf g n with
        | [] => some (0, ⟨updateAssoc st1.levels n 0, st1.visiting.erase n⟩)
        | p :: ps =>
          match foldLevels (getLevel g fuel) (p :: ps) (some (0, st1)) with
          | none => none
          | some ms =>
            some (ms.1 + 1, ⟨updateAssoc ms.2.levels n (ms.1 + 1), ms.2.visiting.erase n⟩)

/-- Every identifier the layout can touch: the node keys and both endpoints
of every edge, deduplicated. -/
def allIds (g : LineageGraph) : List String :=
  ((g.nodes.map Prod.fst) ++ (g.edges.map (fun e => e.source) ++ g.edges.map (fun e => e.target))).dedup

/-- Fuel for `getLevel`: the recursion depth is bounded by the number of
distinct identifiers, since each nested call marks a fresh one as visiting. -/
def levelFuel (g : LineageGraph) : Nat := (allIds g).length + 1

/-- One step of the `for node_id in lineage.nodes: get_level(node_id)` loop. -/
def levelsStep (g : LineageGraph) (acc : Option LevelState) (n : String) : Option LevelState :=
  match acc with
  | none => none
  | some st =>
    match getLevel g (levelFuel g) n st with
    | none => none
    | some ls => some ls.2

/-- The `for node_id in lineage.nodes: get_level(node_id)` loop: thread the
memo state over all node keys and keep the final `levels` dict. -/
def computeLevels (g : LineageGraph) : Option (List (String × Nat)) :=
  ((g.nodes.map Prod.fst).foldl (levelsStep g) (some ⟨[], []⟩)).map LevelState.levels

/-! ## `layout.py`: `_find_clusters` -/

/-- The breadth-first loop of `_find_clusters`: pop the queue head; skip it if
already in the cluster, otherwise add it and enqueue its downstream and
upstream neighbours not yet in the cluster.  The cluster set is modelled as
the list of members in discovery order. -/
def bfsCluster (g : LineageGraph) : Nat → List String → List String → Option (List String)
  | 0, _, _ => none
  | Nat.succ _, [], cluster => some cluster
  | Nat.succ fuel, n :: queue, cluster =>
    if n ∈ cluster then bfsCluster g fuel queue cluster
    else
      let cluster' := cluster ++ [n]
      let queue' :=
        (queue ++ (downstreamOf g n).filter (fun c => c ∉ cluster')) ++
          (upstreamOf g n).filter (fun c => c ∉ cluster')
      bfsCluster g fuel queue' cluster'

/-- Fuel for the worklist traversals: every step either shortens the queue or
moves a fresh identifier into the cluster while enqueueing at most
`2 * edges.length` neighbours, so the total step count stays below this
bound. -/
def clusterFuel (g : LineageGraph) : Nat :=
  2 + (1 + 2 * g.edges.length) * (allIds g).length

/-- One step of the `_find_clusters` seeding loop over the node keys; the
state is the pair (visited, clusters). -/
def clustersStep (g : LineageGraph) (acc : Option (List String × List (List String)))
    (nid : String) : Option (List String × List (List String)) :=
  match acc with
  | none => none
  | some vc =>
    if nid ∈ vc.1 then some vc
    else
      match bfsCluster g (clusterFuel g) [nid] [] with
      | none => none
      | some cluster => some (vc.1 ++ cluster.filter (fun x => x ∉ vc.1), vc.2 ++ [cluster])

/-- `_find_clusters`: seed a traversal at every not-yet-visited node key. -/
def find_clusters (g : LineageGraph) : Option (List (List String)) :=
  ((g.nodes.map Prod.fst).foldl (clustersStep g)
    (some (([] : List String), ([] : List (List String))))).map Prod.snd

/-- `_get_cluster_sort_key`: `min(sorted(cluster))`, the least member (never
called on an empty cluster; the empty default is dead). -/
def clusterKey : List String → String
  | [] => ""
  | x :: xs => xs.foldl min x

/-! ## `layout.py`: `calculate_positions` -/

/-- The level-`≥1` sort key: the mean y-coordinate of the already-positioned
parents, 0 when none is positioned. -/
def sortKeyFor (g : LineageGraph) (positions : List (String × ℚ × ℚ)) (n : String) : ℚ :=
  let positioned := ((upstreamOf g n).filter (fun p => (lookupA positions p).isSome)).map
    (fun p => ((lookupA positions p).getD (0, 0)).2)
  match positioned with
  | [] => 0
  | y :: ys => (y :: ys).sum / (((y :: ys).length : ℚ))

/-- `cluster_by_level.setdefault(lvl, []).append(node_id)`. -/
def appendAt : List (Nat × List String) → Nat → String → List (Nat × List String)
  | [], lvl, n => [(lvl, [n])]
  | (l, ns) :: t, lvl, n =>
    if l = lvl then (l, ns ++ [n]) :: t else (l, ns) :: appendAt t lvl n

/-- One step of the grouping loop; `none` models the `KeyError` a node
missing from `levels` would raise. -/
def groupStep (levels : List (String × Nat)) (acc : Option (List (Nat × List String)))
    (n : String) : Option (List (Nat × List String)) :=
  match acc with
  | none => none
  | some gs =>
    match lookupA levels n with
    | none => none
    | some lvl => some (appendAt gs lvl n)

/-- Group the cluster's nodes by their computed level. -/
def groupByLevel (levels : List (String × Nat)) (cluster : List String) :
    Option (List (Nat × List String)) :=
  cluster.foldl (groupStep levels) (some [])

/-- Sort each level's list: level 0 alphabetically, the others by the
mean-parent-y key computed against the positions placed so far. -/
def sortClusterLevels (g : LineageGraph) (positions : List (String × ℚ × ℚ))
    (gs : List (Nat × List String)) : List (Nat × List String) :=
  gs.map (fun lv =>
    if lv.1 = 0 then (lv.1, List.insertionSort (fun a b => a ≤ b) lv.2)
    else (lv.1, List.insertionSort (fun a b => sortKeyFor g positions a ≤ sortKeyFor g positions b) lv.2))

/-- `max(len(ns) for ns in cluster_by_level.values())`; `none` models the
`ValueError` of `max` on an empty collection. -/
def maxRows (gs : List (Nat × List String)) : Option Nat :=
  match gs.map (fun lv => lv.2.length) with
  | [] => none
  | x :: xs => some (xs.foldl max x)

/-- Place one column: node `i` of the list at `(x, y_offset + i * 130)`. -/
def placeColumn (ns : List String) (x y_offset : ℚ) : List (String × ℚ × ℚ) :=
  ns.enum.map (fun p => (p.2, x, y_offset + (p.1 : ℚ) * 130))

/-- The placement of one level's column: `x` from the level, the column
centred vertically within the cluster band. -/
def columnOf (gs : List (Nat × List String)) (current_y : ℚ) (max_rows : Nat)
    (lvl : Nat) : List (String × ℚ × ℚ) :=
  let ns := (lookupA gs lvl).getD []
  placeColumn ns ((lvl : ℚ) * 380 + 80)
    (current_y + (((max_rows : ℚ) - 1) * 130 - ((ns.length : ℚ) - 1) * 130) / 2)

/-- The placement writes of one cluster, in the order Python performs the
dict assignments: levels in ascending order, each column centred vertically
within the cluster band. -/
def clusterWrites (gs : List (Nat × List String)) (current_y : ℚ) (max_rows : Nat) :
    List (String × ℚ × ℚ) :=
  (List.insertionSort (fun a b => a ≤ b) (gs.map Prod.fst)).flatMap
    (columnOf gs current_y max_rows)

/-- The sequence of dict assignments `positions[node_id] = (x, y)`. -/
def applyWrites (ps : List (String × ℚ × ℚ)) (ws : List (String × ℚ × ℚ)) :
    List (String × ℚ × ℚ) :=
  ws.foldl (fun ps w => updateAssoc ps w.1 w.2) ps

/-- The per-cluster body of `calculate_positions`: sort the level lists (the
sort keys read the positions dict as populated by the previous clusters),
then place every column and advance the y cursor past the band. -/
def placeCluster (g : LineageGraph) (levels : List (String × Nat))
    (pc : List (String × ℚ × ℚ) × ℚ) (cluster : List String) :
    Option (List (String × ℚ × ℚ) × ℚ) :=
  match groupByLevel levels cluster with
  | none => none
  | some gs0 =>
    let gs := sortClusterLevels g pc.1 gs0
    match maxRows gs with
    | none => none
    | some max_rows =>
      some (applyWrites pc.1 (clusterWrites gs pc.2 max_rows),
        pc.2 + ((max_rows : ℚ) - 1) * 130 + 80 + 130)

/-- One step of the `for cluster in clusters:` loop. -/
def placeStep (g : LineageGraph) (levels : List (String × Nat))
    (acc : Option (List (String × ℚ × ℚ) × ℚ)) (cluster : List String) :
    Option (List (String × ℚ × ℚ) × ℚ) :=
  match acc with
  | none => none
  | some pc => placeCluster g levels pc cluster

/-- `calculate_positions`: levels, clusters sorted by least member, cluster
bands stacked top to bottom, and a final vertical re-centering by
`(min + max) / 2` of the y-coordinates. -/
def calculate_positions (g : LineageGraph) : Option (List (String × ℚ × ℚ)) :=
  if g.nodes.isEmpty then some []
  else
    match computeLevels g with
    | none => none
    | some levels =>
      match find_clusters g with
      | none => none
      | some clusters =>
        let sortedClusters :=
          List.insertionSort (fun c1 c2 => clusterKey c1 ≤ clusterKey c2) clusters
        match sortedClusters.foldl (placeStep g levels)
            (some (([] : List (String × ℚ × ℚ)), (0 : ℚ))) with
        | none => none
        | some pc =>
          match pc.1.map (fun w => w.2.2) with
          | [] => some pc.1
          | y :: ys =>
            let y_center := (ys.foldl min y + ys.foldl max y) / 2
            some (pc.1.map (fun w => (w.1, w.2.1, w.2.2 - y_center)))

/-! ## `layout.py`: `get_connected_subgraph` -/

/-- The inner loop over one popped node's neighbours: each neighbour not yet
in `connected` is added to it and appended to the queue. -/
def enqueueNew (children : List String) (cq : List String × List String) :
    List String × List String :=
  children.foldl
    (fun cq child => if child ∈ cq.1 then cq else (cq.1 ++ [child], cq.2 ++ [child]))
    cq

/-- One direction of the `get_connected_subgraph` breadth-first search. -/
def bfsDir (adj : String → List String) : Nat → List String → List String → Option (List String)
  | 0, _, _ => none
  | Nat.succ _, [], connected => some connected
  | Nat.succ fuel, n :: queue, connected =>
    let cq := enqueueNew (adj n) (connected, queue)
    bfsDir adj fuel cq.2 cq.1

/-- `get_connected_subgraph`: seed `connected` with the selected node, run the
downstream search, then run the upstream search over the *same* `connected`
set. -/
def get_connected_subgraph (g : LineageGraph) (selected_id : String) : Option (List String) :=
  match bfsDir (downstreamOf g) (clusterFuel g) [selected_id] [selected_id] with
  | none => none
  | some c1 => bfsDir (upstreamOf g) (clusterFuel g) [selected_id] c1

/-! ## Graph well-formedness and invariants -/

/-- The node keys of a graph. -/
def nodeKeys (g : LineageGraph) : List String := g.nodes.map Prod.fst

/-- The referential-integrity invariant of `LineageGraph` (§3 of the spec):
edge endpoints, `mv_names` and `target_names` are node keys. -/
def RefIntegrity (g : LineageGraph) : Prop :=
  (∀ e ∈ g.edges, e.source ∈ nodeKeys g ∧ e.target ∈ nodeKeys g) ∧
    (∀ n ∈ g.mv_names, n ∈ nodeKeys g) ∧ (∀ n ∈ g.target_names, n ∈ nodeKeys g)

/-- The data-model well-formedness `calculate_positions` is called under: the
node dict has duplicate-free keys (automatic for a Python dict) and every
edge endpoint is a node key. -/
def WellFormed (g : LineageGraph) : Prop :=
  (nodeKeys g).Nodup ∧ ∀ e ∈ g.edges, e.source ∈ nodeKeys g ∧ e.target ∈ nodeKeys g

/-- The invariant of the `_find_clusters` seeding loop: every visited node is
in some recorded cluster, and every recorded cluster is duplicate-free,
nonempty, and made of known identifiers. -/
def GoodClusters (g : LineageGraph) (vc : List String × List (List String)) : Prop :=
  (∀ x ∈ vc.1, ∃ c ∈ vc.2, x ∈ c) ∧
    ∀ c ∈ vc.2, c.Nodup ∧ c ≠ [] ∧ ∀ x ∈ c, x ∈ allIds g

/-- The grouping invariant of `cluster_by_level`: level keys are distinct and
every group is a nonempty duplicate-free list of nodes of that exact level. -/
def GoodGroups (levels : List (String × Nat)) (gs : List (Nat × List String)) : Prop :=
  (gs.map Prod.fst).Nodup ∧
    ∀ lv ∈ gs, lv.2 ≠ [] ∧ lv.2.Nodup ∧ ∀ x ∈ lv.2, lookupA levels x = some lv.1

/-- Distinct keys carry distinct positions. -/
def ValueInj (ps : List (String × ℚ × ℚ)) : Prop :=
  ∀ w1 ∈ ps, ∀ w2 ∈ ps, w1.1 ≠ w2.1 → w1.2 ≠ w2.2

/-! ## Concrete inputs used to separate the code from the claims -/


/-- A view whose `SELECT` reads from `db.mv2` — so `db.mv2` first enters the
graph as a plain source node. -/
def recMv1 : MVRecord :=
  ⟨"db", "mv1", "CREATE MATERIALIZED VIEW db.mv1 AS SELECT x FROM db.mv2", none, none⟩

/-- A later record in which `db.mv2` itself is the view. -/
def recMv2 : MVRecord :=
  ⟨"db", "mv2", "CREATE MATERIALIZED VIEW db.mv2 AS SELECT 1", none, none⟩

/-- A view reading from `db.t`, so `db.t` first enters the graph as a source. -/
def recSrcT : MVRecord :=
  ⟨"db", "mva", "CREATE MATERIALIZED VIEW db.mva AS SELECT x FROM db.t", none, none⟩

/-- A later view writing `TO db.t` while `db.t` is already a node. -/
def recToT : MVRecord :=
  ⟨"db", "mvb", "CREATE MATERIALIZED VIEW db.mvb TO db.t AS SELECT y FROM db.u", none, none⟩

/-- A two-node cycle (the spec's own edge case for the layout engine). -/
def cycleGraph : LineageGraph :=
  ⟨[("db.A", ⟨"db", "A", "MergeTree", "db.A"⟩), ("db.B", ⟨"db", "B", "MergeTree", "db.B"⟩)],
    [⟨"db.A", "db.B", "mv"⟩, ⟨"db.B", "db.A", "mv"⟩], [], []⟩

/-- An asymmetric two-cluster graph: `db.a → db.c ← db.b` next to the
isolated `db.d`.  Its laid-out y-coordinates have mid-range 0 but a nonzero
arithmetic mean. -/
def meanGraph : LineageGraph :=
  ⟨[("db.a", ⟨"db", "a", "T", "db.a"⟩), ("db.b", ⟨"db", "b", "T", "db.b"⟩),
      ("db.c", ⟨"db", "c", "T", "db.c"⟩), ("db.d", ⟨"db", "d", "T", "db.d"⟩)],
    [⟨"db.a", "db.c", "db.c"⟩, ⟨"db.b", "db.c", "db.c"⟩], [], []⟩

/-- Level-0 nodes `db.a`, `db.b`; level-1 nodes `db.y` (parents `a` and `b`)
and `db.x` (parent `a` only), with `db.y` discovered before `db.x`. -/
def orderGraph : LineageGraph :=
  ⟨[("db.a", ⟨"db", "a", "T", "db.a"⟩), ("db.b", ⟨"db", "b", "T", "db.b"⟩),
      ("db.x", ⟨"db", "x", "T", "db.x"⟩), ("db.y", ⟨"db", "y", "T", "db.y"⟩)],
    [⟨"db.a", "db.y", "m"⟩, ⟨"db.a", "db.x", "m"⟩, ⟨"db.b", "db.y", "m"⟩], [], []⟩

/-- A cycle `db.s ⇄ db.a` with an extra ancestor `db.u → db.a`: `db.u` is
backward-reachable from `db.s` but every backward path passes through the
forward-reachable `db.a`. -/
def sharedVisitedGraph : LineageGraph :=
  ⟨[("db.s", ⟨"db", "s", "T", "db.s"⟩), ("db.a", ⟨"db", "a", "T", "db.a"⟩),
      ("db.u", ⟨"db", "u", "T", "db.u"⟩)],
    [⟨"db.s", "db.a", "m"⟩, ⟨"db.a", "db.s", "m"⟩, ⟨"db.u", "db.a", "m"⟩], [], []⟩

/-! # Theorems

## Association lists and sets -/

theorem lookupA_isSome_iff {α : Type} (l : List (String × α)) (k : String) :
    (lookupA l k).isSome ↔ k ∈ l.map Prod.fst := by
  induction l with
  | nil => simp [lookupA]
  | cons p t ih =>
    obtain ⟨a, b⟩ := p
    by_cases h : a = k
    · subst h; simp [lookupA]
    · simp [lookupA, h, ih, Ne.symm h]

theorem mem_map_fst_updateAssoc {κ α : Type} [DecidableEq κ] (l : List (κ × α)) (k k' : κ)
    (v : α) : k' ∈ (updateAssoc l k v).map Prod.fst ↔ k' = k ∨ k' ∈ l.map Prod.fst := by
  induction l with
  | nil => simp [updateAssoc]
  | cons p t ih =>
    obtain ⟨a, b⟩ := p
    by_cases h : a = k
    · subst h
      have hu : updateAssoc ((a, b) :: t) a v = (a, v) :: t := by simp [updateAssoc]
      rw [hu]
      simp only [List.map_cons, List.mem_cons]
      tauto
    · simp only [updateAssoc, if_neg h, List.map_cons, List.mem_cons, ih]
      tauto

theorem mem_addSet (l : List String) (x y : String) : y ∈ addSet l x ↔ y = x ∨ y ∈ l := by
  unfold addSet
  by_cases h : x ∈ l
  · simp only [if_pos h]
    constructor
    · tauto
    · rintro (rfl | hy) <;> assumption
  · simp [if_neg h, or_comm]

theorem lookupA_updateAssoc_same {κ α : Type} [DecidableEq κ] (l : List (κ × α)) (k : κ)
    (v : α) : lookupA (updateAssoc l k v) k = some v := by
  induction l with
  | nil => simp [updateAssoc, lookupA]
  | cons p t ih =>
    obtain ⟨a, b⟩ := p
    by_cases h : a = k
    · subst h; simp [updateAssoc, lookupA]
    · simp [updateAssoc, lookupA, h, ih]

theorem lookupA_updateAssoc_ne {κ α : Type} [DecidableEq κ] (l : List (κ × α)) (k k' : κ)
    (v : α) (h : k' ≠ k) : lookupA (updateAssoc l k v) k' = lookupA l k' := by
  induction l with
  | nil => simp [updateAssoc, lookupA, Ne.symm h]
  | cons p t ih =>
    obtain ⟨a, b⟩ := p
    by_cases ha : a = k
    · subst ha; simp [updateAssoc, lookupA, Ne.symm h, h]
    · by_cases ha' : a = k'
      · subst ha'; simp [updateAssoc, lookupA, ha, h]
      · simp [updateAssoc, lookupA, ha, ha', ih]

/-! ## C1: referential integrity of `build_lineage` -/

theorem mem_nodeKeys_addSourceStep (el : List (String × String)) (mv db : String)
    (g : LineageGraph) (s k : String) :
    k ∈ nodeKeys (addSourceStep el mv db g s) ↔ k = s ∨ k ∈ nodeKeys g := by
  unfold addSourceStep nodeKeys
  by_cases h : (lookupA g.nodes s).isSome
  · simp only [h, if_true]
    constructor
    · exact Or.inr
    · rintro (rfl | hk)
      · exact (lookupA_isSome_iff g.nodes _).mp h
      · exact hk
  · simp only [h, if_false]
    exact mem_map_fst_updateAssoc g.nodes s k _

theorem edges_addSourceStep (el : List (String × String)) (mv db : String)
    (g : LineageGraph) (s : String) :
    (addSourceStep el mv db g s).edges = g.edges ++ [⟨s, mv, mv⟩] := by
  unfold addSourceStep
  by_cases h : (lookupA g.nodes s).isSome <;> simp [h]

theorem mv_names_addSourceStep (el : List (String × String)) (mv db : String)
    (g : LineageGraph) (s : String) :
    (addSourceStep el mv db g s).mv_names = g.mv_names := by
  unfold addSourceStep
  by_cases h : (lookupA g.nodes s).isSome <;> simp [h]

theorem target_names_addSourceStep (el : List (String × String)) (mv db : String)
    (g : LineageGraph) (s : String) :
    (addSourceStep el mv db g s).target_names = g.target_names := by
  unfold addSourceStep
  by_cases h : (lookupA g.nodes s).isSome <;> simp [h]

theorem refIntegrity_addSourceStep (el : List (String × String)) (mv db : String)
    (g : LineageGraph) (s : String) (hg : RefIntegrity g) (hmv : mv ∈ nodeKeys g) :
    RefIntegrity (addSourceStep el mv db g s) ∧ mv ∈ nodeKeys (addSourceStep el mv db g s) := by
  obtain ⟨he, hm, ht⟩ := hg
  have hmono : ∀ k ∈ nodeKeys g, k ∈ nodeKeys (addSourceStep el mv db g s) := by
    intro k hk
    exact (mem_nodeKeys_addSourceStep el mv db g s k).mpr (Or.inr hk)
  have hsrc : s ∈ nodeKeys (addSourceStep el mv db g s) :=
    (mem_nodeKeys_addSourceStep el mv db g s s).mpr (Or.inl rfl)
  refine ⟨⟨?_, ?_, ?_⟩, hmono mv hmv⟩
  · intro e hee
    rw [edges_addSourceStep] at hee
    rcases List.mem_append.mp hee with hold | hnew
    · exact ⟨hmono _ (he e hold).1, hmono _ (he e hold).2⟩
    · simp at hnew
      subst hnew
      exact ⟨hsrc, hmono mv hmv⟩
  · intro n hn
    rw [mv_names_addSourceStep] at hn
    exact hmono n (hm n hn)
  · intro n hn
    rw [target_names_addSourceStep] at hn
    exact hmono n (ht n hn)

theorem refIntegrity_sourcesFold (el : List (String × String)) (mv db : String)
    (sources : List String) :
    ∀ g : LineageGraph, RefIntegrity g → mv ∈ nodeKeys g →
      RefIntegrity (sources.foldl (addSourceStep el mv db) g) ∧
        mv ∈ nodeKeys (sources.foldl (addSourceStep el mv db) g) := by
  induction sources with
  | nil => intro g hg hmv; exact ⟨hg, hmv⟩
  | cons s rest ih =>
    intro g hg hmv
    have hstep := refIntegrity_addSourceStep el mv db g s hg hmv
    exact ih _ hstep.1 hstep.2

theorem mem_nodeKeys_addTargetStep (el : List (String × String)) (mv db : String)
    (g : LineageGraph) (t : String × Bool) (k : String) :
    k ∈ nodeKeys (addTargetStep el mv db g t) ↔ k = t.1 ∨ k ∈ nodeKeys g := by
  unfold addTargetStep nodeKeys
  by_cases h : (lookupA g.nodes t.1).isSome
  · simp only [h, if_true]
    constructor
    · exact Or.inr
    · rintro (rfl | hk)
      · exact (lookupA_isSome_iff g.nodes _).mp h
      · exact hk
  · simp only [h, if_false]
    exact mem_map_fst_updateAssoc g.nodes t.1 k _

theorem edges_addTargetStep (el : List (String × String)) (mv db : String)
    (g : LineageGraph) (t : String × Bool) :
    (addTargetStep el mv db g t).edges = g.edges ++ [⟨mv, t.1, mv⟩] := by
  unfold addTargetStep
  by_cases h : (lookupA g.nodes t.1).isSome <;> simp [h]

theorem mv_names_addTargetStep (el : List (String × String)) (mv db : String)
    (g : LineageGraph) (t : String × Bool) :
    (addTargetStep el mv db g t).mv_names = g.mv_names := by
  unfold addTargetStep
  by_cases h : (lookupA g.nodes t.1).isSome <;> simp [h]

theorem target_names_addTargetStep (el : List (String × String)) (mv db : String)
    (g : LineageGraph) (t : String × Bool) :
    (addTargetStep el mv db g t).target_names = addSet g.target_names t.1 := by
  unfold addTargetStep
  by_cases h : (lookupA g.nodes t.1).isSome <;> simp [h]

theorem refIntegrity_addTargetStep (el : List (String × String)) (mv db : String)
    (g : LineageGraph) (t : String × Bool) (hg : RefIntegrity g) (hmv : mv ∈ nodeKeys g) :
    RefIntegrity (addTargetStep el mv db g t) := by
  obtain ⟨he, hm, ht⟩ := hg
  have hmono : ∀ k ∈ nodeKeys g, k ∈ nodeKeys (addTargetStep el mv db g t) := by
    intro k hk
    exact (mem_nodeKeys_addTargetStep el mv db g t k).mpr (Or.inr hk)
  have htgt : t.1 ∈ nodeKeys (addTargetStep el mv db g t) :=
    (mem_nodeKeys_addTargetStep el mv db g t t.1).mpr (Or.inl rfl)
  refine ⟨?_, ?_, ?_⟩
  · intro e hee
    rw [edges_addTargetStep] at hee
    rcases List.mem_append.mp hee with hold | hnew
    · exact ⟨hmono _ (he e hold).1, hmono _ (he e hold).2⟩
    · simp at hnew
      subst hnew
      exact ⟨hmono mv hmv, htgt⟩
  · intro n hn
    rw [mv_names_addTargetStep] at hn
    exact hmono n (hm n hn)
  · intro n hn
    rw [target_names_addTargetStep] at hn
    rcases (mem_addSet _ _ _).mp hn with rfl | hmem
    · exact htgt
    · exact hmono n (ht n hmem)

theorem refIntegrity_processRecord (el : List (String × String)) (g : LineageGraph)
    (row : MVRecord) (hg : RefIntegrity g) : RefIntegrity (processRecord el g row) := by
  unfold processRecord
  obtain ⟨he, hm, ht⟩ := hg
  set mv := row.database ++ ("." ++ row.name) with hmv
  set g1 : LineageGraph :=
    { g with
      nodes := updateAssoc g.nodes mv (mkTableNode row.database row.name ("MaterializedView"))
      mv_names := addSet g.mv_names mv } with hg1
  have hkeys1 : ∀ k, k ∈ nodeKeys g1 ↔ k = mv ∨ k ∈ nodeKeys g := by
    intro k
    exact mem_map_fst_updateAssoc g.nodes mv k _
  have hmono1 : ∀ k ∈ nodeKeys g, k ∈ nodeKeys g1 := by
    intro k hk
    exact (hkeys1 k).mpr (Or.inr hk)
  have hmvmem : mv ∈ nodeKeys g1 := (hkeys1 mv).mpr (Or.inl rfl)
  have hg1i : RefIntegrity g1 := by
    refine ⟨?_, ?_, ?_⟩
    · intro e hee
      have : e ∈ g.edges := hee
      exact ⟨hmono1 _ (he e this).1, hmono1 _ (he e this).2⟩
    · intro n hn
      have : n ∈ addSet g.mv_names mv := hn
      rcases (mem_addSet _ _ _).mp this with rfl | hmem
      · exact hmvmem
      · exact hmono1 n (hm n hmem)
    · intro n hn
      exact hmono1 n (ht n hn)
  have hfold := refIntegrity_sourcesFold el mv row.database
    (mergeDependencies row (parse_source_tables row.create_table_query row.database))
    g1 hg1i hmvmem
  exact refIntegrity_addTargetStep el mv row.database _ _ hfold.1 hfold.2

theorem lookupA_addSourceStep_preserved (el : List (String × String)) (mv db : String)
    (g : LineageGraph) (s k : String) (v : TableNode) (h : lookupA g.nodes k = some v) :
    lookupA (addSourceStep el mv db g s).nodes k = some v := by
  unfold addSourceStep
  by_cases hs : (lookupA g.nodes s).isSome
  · simpa [hs] using h
  · have hne : k ≠ s := by
      rintro rfl
      rw [h] at hs
      simp at hs
    simp only [hs, if_false]
    show lookupA (updateAssoc g.nodes s _) k = some v
    rw [lookupA_updateAssoc_ne _ _ _ _ hne]
    exact h

theorem lookupA_sourcesFold_preserved (el : List (String × String)) (mv db : String)
    (sources : List String) :
    ∀ (g : LineageGraph) (k : String) (v : TableNode), lookupA g.nodes k = some v →
      lookupA (sources.foldl (addSourceStep el mv db) g).nodes k = some v := by
  induction sources with
  | nil => intro g k v h; exact h
  | cons s rest ih =>
    intro g k v h
    exact ih _ k v (lookupA_addSourceStep_preserved el mv db g s k v h)

theorem lookupA_addTargetStep_preserved (el : List (String × String)) (mv db : String)
    (g : LineageGraph) (t : String × Bool) (k : String) (v : TableNode)
    (h : lookupA g.nodes k = some v) :
    lookupA (addTargetStep el mv db g t).nodes k = some v := by
  unfold addTargetStep
  by_cases hs : (lookupA g.nodes t.1).isSome
  · simpa [hs] using h
  · have hne : k ≠ t.1 := by
      rintro rfl
      rw [h] at hs
      simp at hs
    simp only [hs, if_false]
    show lookupA (updateAssoc g.nodes t.1 _) k = some v
    rw [lookupA_updateAssoc_ne _ _ _ _ hne]
    exact h

theorem lookupA_processRecord_preserved (el : List (String × String)) (g : LineageGraph)
    (row : MVRecord) (k : String) (v : TableNode) (h : lookupA g.nodes k = some v)
    (hne : row.database ++ ("." ++ row.name) ≠ k) :
    lookupA (processRecord el g row).nodes k = some v := by
  unfold processRecord
  refine lookupA_addTargetStep_preserved _ _ _ _ _ _ _ ?_
  refine lookupA_sourcesFold_preserved _ _ _ _ _ _ _ ?_
  show lookupA (updateAssoc g.nodes (row.database ++ ("." ++ row.name)) _) k = some v
  rw [lookupA_updateAssoc_ne _ _ _ _ (Ne.symm hne)]
  exact h

/-- C1.  For every input to `build_lineage`, the returned graph satisfies
referential integrity: every edge's `source` and `target` is a node key, and
every element of `mv_names` and of `target_names` is a node key. -/
theorem c1_build_lineage_referential_integrity (mv_rows : List MVRecord)
    (schema_rows : Option (List SchemaRecord)) :
    RefIntegrity (build_lineage mv_rows schema_rows) := by
  unfold build_lineage
  have hinit : RefIntegrity (⟨[], [], [], []⟩ : LineageGraph) := by
    refine ⟨?_, ?_, ?_⟩ <;> intro x hx <;> simp at hx
  generalize (⟨[], [], [], []⟩ : LineageGraph) = g0 at hinit
  induction mv_rows generalizing g0 with
  | nil => exact hinit
  | cons row rest ih =>
    exact ih _ (refIntegrity_processRecord _ g0 row hinit)

/-! ## C2: node registration across records -/

/-- C2 counterexample.  `db.mv2` is first registered as a source node with
engine `"Source"` while processing `recMv1`; processing the subsequent record
`recMv2`, whose view is `db.mv2` itself, overwrites that `TableNode` with
engine `"MaterializedView"` — so a registered node's value is *not* unchanged
by processing a subsequent record. -/
theorem c2_counterexample_view_overwrites :
    lookupA (build_lineage [recMv1] none).nodes ("db.mv2") =
        some (mkTableNode ("db") ("mv2") ("Source")) ∧
      lookupA (build_lineage [recMv1, recMv2] none).nodes ("db.mv2") =
        some (mkTableNode ("db") ("mv2") ("MaterializedView")) ∧
      lookupA (build_lineage [recMv1, recMv2] none).nodes ("db.mv2") ≠
        lookupA (build_lineage [recMv1] none).nodes ("db.mv2") := by
  refine ⟨by decide, by decide, by decide⟩

/-- C2 amended.  First registration wins for source and target discoveries —
the only step that overwrites an existing node is the unconditional view
registration.  Hence once a `full_name` is registered, its `TableNode` value
is unchanged by every subsequent record whose own view `full_name` differs
from it. -/
theorem lookupA_foldRecords_preserved (el : List (String × String)) (rows : List MVRecord) :
    ∀ (g : LineageGraph) (k : String) (v : TableNode), lookupA g.nodes k = some v →
      (∀ row ∈ rows, row.database ++ ("." ++ row.name) ≠ k) →
      lookupA (rows.foldl (processRecord el) g).nodes k = some v := by
  induction rows with
  | nil => intro g k v h _; exact h
  | cons row rest ih =>
    intro g k v h hview
    rw [List.foldl_cons]
    refine ih _ k v ?_ ?_
    · exact lookupA_processRecord_preserved el g row k v h
        (hview row (List.mem_cons_self row rest))
    · intro r hr
      exact hview r (List.mem_cons_of_mem row hr)

theorem c2_amended_first_registration_wins (rows1 rows2 : List MVRecord)
    (schema_rows : Option (List SchemaRecord)) (k : String) (v : TableNode)
    (h : lookupA (build_lineage rows1 schema_rows).nodes k = some v)
    (hview : ∀ row ∈ rows2, row.database ++ ("." ++ row.name) ≠ k) :
    lookupA (build_lineage (rows1 ++ rows2) schema_rows).nodes k = some v := by
  unfold build_lineage at h ⊢
  rw [List.foldl_append]
  exact lookupA_foldRecords_preserved _ rows2 _ k v h hview

/-- C2 witness: the node registered for `db.mv2` by `recMv1` keeps its value
across a later record whose view is `db.mva ≠ db.mv2`. -/
theorem c2_amended_first_registration_wins_witness :
    lookupA (build_lineage ([recMv1] ++ [recSrcT]) none).nodes ("db.mv2") =
      some (mkTableNode ("db") ("mv2") ("Source")) :=
  c2_amended_first_registration_wins [recMv1] [recSrcT] none ("db.mv2")
    (mkTableNode ("db") ("mv2") ("Source")) (by decide) (by decide)

/-! ## C6: `target_names` additions -/

/-- C6 counterexample.  After `recSrcT`, `db.t` is already a node (a source);
the claim then forbids adding it to `target_names` while processing `recToT`,
but the code adds it unconditionally. -/
theorem c6_counterexample_unconditional_add :
    (lookupA (build_lineage [recSrcT] none).nodes ("db.t")).isSome = true ∧
      ("db.t") ∉ (build_lineage [recSrcT] none).target_names ∧
      ("db.t") ∈ (build_lineage [recSrcT, recToT] none).target_names := by
  refine ⟨by decide, by decide, by decide⟩

theorem target_names_sourcesFold (el : List (String × String)) (mv db : String)
    (sources : List String) :
    ∀ g : LineageGraph,
      (sources.foldl (addSourceStep el mv db) g).target_names = g.target_names := by
  induction sources with
  | nil => intro g; rfl
  | cons s rest ih =>
    intro g
    rw [List.foldl_cons, ih, target_names_addSourceStep]

theorem mem_target_names_processRecord (el : List (String × String)) (g : LineageGraph)
    (row : MVRecord) (t : String) :
    t ∈ (processRecord el g row).target_names ↔
      t = (parse_target_table row.create_table_query row.database row.name).1 ∨
        t ∈ g.target_names := by
  unfold processRecord
  rw [target_names_addTargetStep, target_names_sourcesFold]
  exact mem_addSet _ _ _

/-- C6 amended.  The engine resolution and the node registration for a parsed
target happen only when the target is not already a node, but the target's
`full_name` is added to `target_names` unconditionally, for every record: the
final `target_names` holds exactly the parsed targets of the input records. -/
theorem c6_amended_target_names_characterization (mv_rows : List MVRecord)
    (schema_rows : Option (List SchemaRecord)) (t : String) :
    t ∈ (build_lineage mv_rows schema_rows).target_names ↔
      ∃ row ∈ mv_rows,
        t = (parse_target_table row.create_table_query row.database row.name).1 := by
  unfold build_lineage
  have hgen : ∀ (rows : List MVRecord) (g : LineageGraph),
      t ∈ (rows.foldl (processRecord (buildEngineLookup (schema_rows.getD []))) g).target_names ↔
        (∃ row ∈ rows,
            t = (parse_target_table row.create_table_query row.database row.name).1) ∨
          t ∈ g.target_names := by
    intro rows
    induction rows with
    | nil => intro g; simp
    | cons row rest ih =>
      intro g
      rw [List.foldl_cons, ih, mem_target_names_processRecord]
      simp only [List.mem_cons]
      constructor
      · rintro (h | (rfl | h))
        · obtain ⟨r, hr, hrt⟩ := h
          exact Or.inl ⟨r, Or.inr hr, hrt⟩
        · exact Or.inl ⟨row, Or.inl rfl, rfl⟩
        · exact Or.inr h
      · rintro (⟨r, (rfl | hr), hrt⟩ | h)
        · exact Or.inr (Or.inl hrt)
        · exact Or.inl ⟨r, hr, hrt⟩
        · exact Or.inr (Or.inr h)
  rw [hgen]
  simp

/-! ## C8: `parse_source_tables` output shape and reorder invariance -/

/-- C8.  The output of `parse_source_tables` is lexicographically sorted and
duplicate-free, and any two inputs whose extracted `FROM`/`JOIN` references
(after qualification) form the same set produce the same output list. -/
theorem c8_parse_source_tables_sorted_dedup_invariant (q1 q2 db : String) :
    List.Sorted (· ≤ ·) (parse_source_tables q1 db) ∧ (parse_source_tables q1 db).Nodup ∧
      ((∀ x ∈ rawSources q1 db, x ∈ rawSources q2 db) →
        (∀ x ∈ rawSources q2 db, x ∈ rawSources q1 db) →
          parse_source_tables q1 db = parse_source_tables q2 db) := by
  refine ⟨List.sorted_insertionSort _ _, ?_, ?_⟩
  · exact ((List.perm_insertionSort _ _).nodup_iff).mpr (List.nodup_dedup _)
  · intro h12 h21
    unfold parse_source_tables
    have hperm : (rawSources q1 db).dedup.Perm (rawSources q2 db).dedup := by
      refine (List.perm_ext_iff_of_nodup (List.nodup_dedup _) (List.nodup_dedup _)).mpr ?_
      intro a
      simp only [List.mem_dedup]
      exact ⟨fun ha => h12 a ha, fun ha => h21 a ha⟩
    exact List.eq_of_perm_of_sorted
      ((List.perm_insertionSort _ _).trans (hperm.trans (List.perm_insertionSort _ _).symm))
      (List.sorted_insertionSort _ _) (List.sorted_insertionSort _ _)

/-- C8 witness: swapping the `FROM` and `JOIN` clauses of a two-table select
leaves the output unchanged. -/
theorem c8_witness_reorder :
    parse_source_tables ("AS SELECT FROM db.t JOIN x.y") ("db") =
      parse_source_tables ("AS SELECT FROM x.y JOIN db.t") ("db") :=
  (c8_parse_source_tables_sorted_dedup_invariant ("AS SELECT FROM db.t JOIN x.y")
    ("AS SELECT FROM x.y JOIN db.t") ("db")).2.2 (by decide) (by decide)

/-! ## C9: where source extraction starts -/

/-- C9 counterexample.  In `"AS x SELECT FROM db.t"` the token `AS` is
followed by the token `SELECT` with the non-whitespace characters `" x "`
between them; the claim then requires extraction from that point (yielding
`db.t`), but the code's pattern `\bAS\s+SELECT\b` admits only whitespace
between the tokens and returns the empty list. -/
theorem c9_counterexample_nonwhitespace_separator :
    parse_source_tables ("AS x SELECT FROM db.t") ("db") = [] ∧
      parse_source_tables_claimC9 ("AS x SELECT FROM db.t") ("db") = ["db.t"] ∧
      parse_source_tables ("AS x SELECT FROM db.t") ("db") ≠
        parse_source_tables_claimC9 ("AS x SELECT FROM db.t") ("db") := by
  refine ⟨by decide, by decide, by decide⟩

theorem lastOpt_none (pre : List Char) : lastOpt none pre = pre.getLast? := by
  unfold lastOpt
  cases h : pre.getLast? <;> rfl

theorem lastOpt_cons (prev : Option Char) (c : Char) (pre : List Char) :
    lastOpt prev (c :: pre) = lastOpt (some c) pre := by
  cases pre with
  | nil => rfl
  | cons d t =>
    unfold lastOpt
    rw [List.getLast?_cons_cons]
    cases h : (d :: t).getLast? with
    | some e => rfl
    | none => exact absurd h (by simp)

theorem asSelectHere_nil : asSelectHere [] = false := rfl

theorem findAsSelect_eq_none (s : List Char) (prev : Option Char)
    (h : ∀ pre suf, s = pre ++ suf → boundaryOk (lastOpt prev pre) = true →
      asSelectHere suf = true → False) :
    findAsSelect prev s = none := by
  induction s generalizing prev with
  | nil => rfl
  | cons c rest ih =>
    have hcond : ¬(boundaryOk prev && asSelectHere (c :: rest)) = true := by
      intro hc
      rw [Bool.and_eq_true] at hc
      exact h [] (c :: rest) rfl hc.1 hc.2
    unfold findAsSelect
    rw [if_neg hcond]
    refine ih (some c) ?_
    intro pre suf hsplit hb hm
    refine h (c :: pre) suf ?_ ?_ hm
    · rw [hsplit]; rfl
    · rwa [lastOpt_cons]

theorem findAsSelect_eq_some (pre : List Char) :
    ∀ (suf : List Char) (prev : Option Char),
      boundaryOk (lastOpt prev pre) = true → asSelectHere suf = true →
      (∀ pre' suf', pre ++ suf = pre' ++ suf' → boundaryOk (lastOpt prev pre') = true →
        asSelectHere suf' = true → pre.length ≤ pre'.length) →
      findAsSelect prev (pre ++ suf) = some suf := by
  induction pre with
  | nil =>
    intro suf prev hb hm hmin
    rw [List.nil_append]
    cases suf with
    | nil => rw [asSelectHere_nil] at hm; exact absurd hm (by simp)
    | cons c rest =>
      have hc : (boundaryOk prev && asSelectHere (c :: rest)) = true := by
        rw [Bool.and_eq_true]
        exact ⟨hb, hm⟩
      simp only [findAsSelect]
      rw [if_pos hc]
  | cons c pre' ih =>
    intro suf prev hb hm hmin
    rw [List.cons_append]
    have hcond : ¬(boundaryOk prev && asSelectHere (c :: (pre' ++ suf))) = true := by
      intro hc
      rw [Bool.and_eq_true] at hc
      have := hmin [] (c :: (pre' ++ suf)) (by rw [List.cons_append]; rfl) hc.1 hc.2
      simp at this
    simp only [findAsSelect]
    rw [if_neg hcond]
    refine ih suf (some c) ?_ hm ?_
    · rwa [lastOpt_cons] at hb
    · intro pre'' suf'' hsplit'' hb'' hm''
      have := hmin (c :: pre'') suf'' (by rw [List.cons_append, hsplit'']; rfl)
        (by rwa [lastOpt_cons]) hm''
      simpa using this

/-- C9 amended.  Extraction starts at the first case-insensitive occurrence
of the token `AS` followed by *one or more whitespace characters* (newlines
included) and then `SELECT`; everything before that point is ignored, and
when no such occurrence exists the result is the empty list.  (Splitting
positions are given as `take`/`drop` indices; `asSelectHere` is the
head-anchored matcher of the code's `\bAS\s+SELECT\b`.) -/
theorem c9_amended_whitespace_separator (q db : String) :
    ((∀ n, n ≤ q.data.length →
        ¬(boundaryOk (q.data.take n).getLast? = true ∧ asSelectHere (q.data.drop n) = true)) →
      parse_source_tables q db = []) ∧
    (∀ n, n ≤ q.data.length →
      boundaryOk (q.data.take n).getLast? = true → asSelectHere (q.data.drop n) = true →
      (∀ m, m < n →
        ¬(boundaryOk (q.data.take m).getLast? = true ∧ asSelectHere (q.data.drop m) = true)) →
      parse_source_tables q db =
        List.insertionSort (fun a b => a ≤ b) (extractSources (q.data.drop n) db).dedup) := by
  constructor
  · intro hno
    have hnone : findAsSelect none q.data = none := by
      refine findAsSelect_eq_none q.data none ?_
      intro pre suf hsplit hb hm
      have hlen : pre.length ≤ q.data.length := by
        rw [hsplit, List.length_append]
        exact Nat.le_add_right _ _
      refine hno pre.length hlen ⟨?_, ?_⟩
      · rw [hsplit, List.take_left]
        rwa [lastOpt_none] at hb
      · rwa [hsplit, List.drop_left]
    unfold parse_source_tables rawSources
    rw [hnone]
    rfl
  · intro n hn hb hm hmin
    have hsome : findAsSelect none q.data = some (q.data.drop n) := by
      conv_lhs => rw [← List.take_append_drop n q.data]
      refine findAsSelect_eq_some (q.data.take n) (q.data.drop n) none ?_ hm ?_
      · rwa [lastOpt_none]
      · intro pre' suf' hsplit' hb' hm'
        rw [List.take_append_drop] at hsplit'
        rw [List.length_take, Nat.min_eq_left hn]
        by_contra hlt
        push_neg at hlt
        have hpre' : q.data.take pre'.length = pre' := by
          rw [hsplit', List.take_left]
        have hsuf' : q.data.drop pre'.length = suf' := by
          rw [hsplit', List.drop_left]
        refine hmin pre'.length hlt ⟨?_, ?_⟩
        · rw [hpre']; rwa [lastOpt_none] at hb'
        · rwa [hsuf']
    unfold parse_source_tables rawSources
    rw [hsome]

/-- C9 witness: in `"x AS SELECT FROM db.t"` the first (and only) match is at
index 2, so extraction runs over the suffix from there. -/
theorem c9_amended_whitespace_separator_witness :
    parse_source_tables ("x AS SELECT FROM db.t") ("db") =
      List.insertionSort (fun a b => a ≤ b)
        (extractSources (("x AS SELECT FROM db.t").data.drop 2) ("db")).dedup :=
  (c9_amended_whitespace_separator ("x AS SELECT FROM db.t") ("db")).2 2
    (by decide) (by decide) (by decide) (by decide)

/-! ## Lists: filter-length measures -/

theorem filter_length_mono (l : List String) (p q : String → Bool)
    (h : ∀ x, q x = true → p x = true) : (l.filter q).length ≤ (l.filter p).length := by
  induction l with
  | nil => simp
  | cons a t ih =>
    by_cases hq : q a = true
    · rw [List.filter_cons_of_pos hq, List.filter_cons_of_pos (h a hq)]
      simpa using ih
    · rw [List.filter_cons_of_neg (by simpa using hq)]
      by_cases hp : p a = true
      · rw [List.filter_cons_of_pos hp]
        exact Nat.le_succ_of_le ih
      · rw [List.filter_cons_of_neg (by simpa using hp)]
        exact ih

theorem filter_length_lt (l : List String) (n : String) (p q : String → Bool)
    (hn : n ∈ l) (himp : ∀ x, q x = true → p x = true) (hpn : p n = true) (hqn : q n = false) :
    (l.filter q).length < (l.filter p).length := by
  induction l with
  | nil => simp at hn
  | cons a t ih =>
    rcases List.mem_cons.mp hn with rfl | hmem
    · rw [List.filter_cons_of_pos hpn, List.filter_cons_of_neg (by simp [hqn])]
      exact Nat.lt_succ_of_le (filter_length_mono t p q himp)
    · by_cases hq : q a = true
      · rw [List.filter_cons_of_pos hq, List.filter_cons_of_pos (himp a hq)]
        simpa using ih hmem
      · rw [List.filter_cons_of_neg (by simpa using hq)]
        by_cases hp : p a = true
        · rw [List.filter_cons_of_pos hp]
          exact Nat.lt_succ_of_lt (ih hmem)
        · rw [List.filter_cons_of_neg (by simpa using hp)]
          exact ih hmem

/-! ## `getLevel`: state discipline and fuel sufficiency -/

theorem foldLevels_cons (f : String → LevelState → Option (Nat × LevelState)) (q : String)
    (ps : List String) (acc : Option (Nat × LevelState)) :
    foldLevels f (q :: ps) acc =
      foldLevels f ps
        (match acc with
          | none => none
          | some ms =>
            match f q ms.2 with
            | none => none
            | some ls => some (max ms.1 ls.1, ls.2)) := rfl

theorem foldLevels_acc_none (f : String → LevelState → Option (Nat × LevelState))
    (ps : List String) : foldLevels f ps none = none := by
  induction ps with
  | nil => rfl
  | cons q ps ih => rw [foldLevels_cons]; exact ih

theorem foldLevels_visiting (f : String → LevelState → Option (Nat × LevelState))
    (hf : ∀ q st l st', f q st = some (l, st') → st'.visiting = st.visiting) :
    ∀ (ps : List String) (a res : Nat × LevelState),
      foldLevels f ps (some a) = some res → res.2.visiting = a.2.visiting := by
  intro ps
  induction ps with
  | nil =>
    intro a res h
    have : some a = some res := h
    rw [Option.some_inj] at this
    rw [← this]
  | cons q ps ih =>
    intro a res h
    rw [foldLevels_cons] at h
    have h' : foldLevels f ps
        (match f q a.2 with
          | none => none
          | some ls => some (max a.1 ls.1, ls.2)) = some res := h
    cases hf' : f q a.2 with
    | none =>
      rw [hf', foldLevels_acc_none] at h'
      exact absurd h' (by simp)
    | some ls =>
      rw [hf'] at h'
      have hv := hf q a.2 ls.1 ls.2 (by rw [hf'])
      rw [ih _ _ h']
      exact hv

theorem getLevel_visiting (g : LineageGraph) :
    ∀ (fuel : Nat) (n : String) (st : LevelState) (l : Nat) (st' : LevelState),
      getLevel g fuel n st = some (l, st') → st'.visiting = st.visiting := by
  intro fuel
  induction fuel with
  | zero =>
    intro n st l st' h
    exact absurd h (by simp [getLevel])
  | succ fuel ih =>
    intro n st l st' h
    simp only [getLevel] at h
    split at h
    · rw [Option.some_inj, Prod.mk.injEq] at h
      rw [← h.2]
    · split at h
      · rw [Option.some_inj, Prod.mk.injEq] at h
        rw [← h.2]
      · split at h
        · rw [Option.some_inj, Prod.mk.injEq] at h
          rw [← h.2]
          exact List.erase_cons_head n st.visiting
        · split at h
          · exact absurd h (by simp)
          · rename_i ms hfold
            rw [Option.some_inj, Prod.mk.injEq] at h
            have hv := foldLevels_visiting (getLevel g fuel)
              (fun q st l st' hq => ih q st l st' hq) _ _ _ hfold
            rw [← h.2]
            show ms.2.visiting.erase n = st.visiting
            rw [hv]
            exact List.erase_cons_head n st.visiting

theorem foldLevels_levels_grow (f : String → LevelState → Option (Nat × LevelState))
    (hf : ∀ q st l st', f q st = some (l, st') →
      ∀ k ∈ st.levels.map Prod.fst, k ∈ st'.levels.map Prod.fst) :
    ∀ (ps : List String) (a res : Nat × LevelState),
      foldLevels f ps (some a) = some res →
      ∀ k ∈ a.2.levels.map Prod.fst, k ∈ res.2.levels.map Prod.fst := by
  intro ps
  induction ps with
  | nil =>
    intro a res h
    have : some a = some res := h
    rw [Option.some_inj] at this
    rw [← this]
    exact fun k hk => hk
  | cons q ps ih =>
    intro a res h
    rw [foldLevels_cons] at h
    have h' : foldLevels f ps
        (match f q a.2 with
          | none => none
          | some ls => some (max a.1 ls.1, ls.2)) = some res := h
    cases hf' : f q a.2 with
    | none =>
      rw [hf', foldLevels_acc_none] at h'
      exact absurd h' (by simp)
    | some ls =>
      rw [hf'] at h'
      intro k hk
      exact ih _ _ h' k (hf q a.2 ls.1 ls.2 (by rw [hf']) k hk)

theorem getLevel_levels_grow (g : LineageGraph) :
    ∀ (fuel : Nat) (n : String) (st : LevelState) (l : Nat) (st' : LevelState),
      getLevel g fuel n st = some (l, st') →
      (∀ k ∈ st.levels.map Prod.fst, k ∈ st'.levels.map Prod.fst) ∧
        n ∈ st'.levels.map Prod.fst := by
  intro fuel
  induction fuel with
  | zero =>
    intro n st l st' h
    exact absurd h (by simp [getLevel])
  | succ fuel ih =>
    intro n st l st' h
    simp only [getLevel] at h
    split at h
    · rename_i lv hlk
      rw [Option.some_inj, Prod.mk.injEq] at h
      rw [← h.2]
      refine ⟨fun k hk => hk, ?_⟩
      have : (lookupA st.levels n).isSome := by rw [hlk]; rfl
      exact (lookupA_isSome_iff st.levels n).mp this
    · split at h
      · rw [Option.some_inj, Prod.mk.injEq] at h
        rw [← h.2]
        exact ⟨fun k hk => (mem_map_fst_updateAssoc _ _ _ _).mpr (Or.inr hk),
          (mem_map_fst_updateAssoc _ _ _ _).mpr (Or.inl rfl)⟩
      · split at h
        · rw [Option.some_inj, Prod.mk.injEq] at h
          rw [← h.2]
          exact ⟨fun k hk => (mem_map_fst_updateAssoc _ _ _ _).mpr (Or.inr hk),
            (mem_map_fst_updateAssoc _ _ _ _).mpr (Or.inl rfl)⟩
        · split at h
          · exact absurd h (by simp)
          · rename_i ms hfold
            rw [Option.some_inj, Prod.mk.injEq] at h
            have hg := foldLevels_levels_grow (getLevel g fuel)
              (fun q st l st' hq => (ih q st l st' hq).1) _ _ _ hfold
            rw [← h.2]
            exact ⟨fun k hk => (mem_map_fst_updateAssoc _ _ _ _).mpr (Or.inr (hg k hk)),
              (mem_map_fst_updateAssoc _ _ _ _).mpr (Or.inl rfl)⟩

theorem mem_allIds_of_nodeKey (g : LineageGraph) (k : String) (h : k ∈ nodeKeys g) :
    k ∈ allIds g := by
  unfold allIds
  rw [List.mem_dedup]
  exact List.mem_append.mpr (Or.inl h)

theorem mem_allIds_of_upstream (g : LineageGraph) (n q : String) (h : q ∈ upstreamOf g n) :
    q ∈ allIds g := by
  unfold allIds
  rw [List.mem_dedup]
  refine List.mem_append.mpr (Or.inr (List.mem_append.mpr (Or.inl ?_)))
  unfold upstreamOf at h
  rcases List.mem_map.mp h with ⟨e, he, rfl⟩
  exact List.mem_map.mpr ⟨e, (List.mem_filter.mp he).1, rfl⟩

theorem mem_allIds_of_downstream (g : LineageGraph) (n q : String) (h : q ∈ downstreamOf g n) :
    q ∈ allIds g := by
  unfold allIds
  rw [List.mem_dedup]
  refine List.mem_append.mpr (Or.inr (List.mem_append.mpr (Or.inr ?_)))
  unfold downstreamOf at h
  rcases List.mem_map.mp h with ⟨e, he, rfl⟩
  exact List.mem_map.mpr ⟨e, (List.mem_filter.mp he).1, rfl⟩

theorem foldLevels_isSome (g : LineageGraph) (f : String → LevelState → Option (Nat × LevelState))
    (hfv : ∀ q st l st', f q st = some (l, st') → st'.visiting = st.visiting)
    (V : List String) (hf : ∀ q st, q ∈ allIds g → st.visiting = V → (f q st).isSome) :
    ∀ (ps : List String) (a : Nat × LevelState), (∀ q ∈ ps, q ∈ allIds g) →
      a.2.visiting = V → (foldLevels f ps (some a)).isSome := by
  intro ps
  induction ps with
  | nil => intro a _ _; rfl
  | cons q ps ih =>
    intro a hq hv
    rw [foldLevels_cons]
    have hqs : (f q a.2).isSome := hf q a.2 (hq q (List.mem_cons_self q ps)) hv
    cases hf' : f q a.2 with
    | none => rw [hf'] at hqs; exact absurd hqs (by simp)
    | some ls =>
      show (foldLevels f ps
        (match f q a.2 with
          | none => none
          | some ls => some (max a.1 ls.1, ls.2))).isSome
      rw [hf']
      refine ih (max a.1 ls.1, ls.2) (fun x hx => hq x (List.mem_cons_of_mem q hx)) ?_
      show ls.2.visiting = V
      rw [hfv q a.2 ls.1 ls.2 (by rw [hf'])]
      exact hv

theorem getLevel_isSome (g : LineageGraph) :
    ∀ (fuel : Nat) (st : LevelState) (n : String), n ∈ allIds g →
      (∀ x ∈ st.visiting, x ∈ allIds g) →
      ((allIds g).filter (fun x => x ∉ st.visiting)).length < fuel →
      (getLevel g fuel n st).isSome := by
  intro fuel
  induction fuel with
  | zero => intro st n _ _ hlt; omega
  | succ fuel ih =>
    intro st n hn hv hlt
    simp only [getLevel]
    split
    · rfl
    · split
      · rfl
      · rename_i hnv
        split
        · rfl
        · rename_i p ps hup
          have hps : ∀ q ∈ p :: ps, q ∈ allIds g := by
            intro q hq
            refine mem_allIds_of_upstream g n q ?_
            rw [hup]
            exact hq
          have hfold : (foldLevels (getLevel g fuel) (p :: ps)
              (some (0, ⟨st.levels, n :: st.visiting⟩))).isSome := by
            refine foldLevels_isSome g (getLevel g fuel)
              (fun q st l st' hq => getLevel_visiting g fuel q st l st' hq)
              (n :: st.visiting) ?_ (p :: ps) (0, ⟨st.levels, n :: st.visiting⟩) hps rfl
            intro q stq hq hvq
            refine ih stq q hq ?_ ?_
            · intro x hx
              rw [hvq] at hx
              rcases List.mem_cons.mp hx with rfl | hx'
              · exact hn
              · exact hv x hx'
            · rw [hvq]
              have hlt' : ((allIds g).filter (fun x => x ∉ n :: st.visiting)).length <
                  ((allIds g).filter (fun x => x ∉ st.visiting)).length := by
                refine filter_length_lt (allIds g) n _ _ hn ?_ ?_ ?_
                · intro x hx
                  simp only [decide_eq_true_eq] at hx ⊢
                  intro hmem
                  exact hx (List.mem_cons_of_mem n hmem)
                · simp only [decide_eq_true_eq]
                  exact hnv
                · simp only [decide_eq_false_iff_not]
                  intro hc
                  exact hc (List.mem_cons_self n st.visiting)
              omega
          cases hfr : foldLevels (getLevel g fuel) (p :: ps)
              (some (0, ⟨st.levels, n :: st.visiting⟩)) with
          | none => rw [hfr] at hfold; exact absurd hfold (by simp)
          | some ms => rfl

/-! ## `computeLevels`: totality and coverage -/

theorem levelsFold_spec (g : LineageGraph) :
    ∀ (ks : List String) (st : LevelState), (∀ q ∈ ks, q ∈ allIds g) → st.visiting = [] →
      ∃ st', ks.foldl (levelsStep g) (some st) = some st' ∧ st'.visiting = [] ∧
        (∀ k ∈ st.levels.map Prod.fst, k ∈ st'.levels.map Prod.fst) ∧
        ∀ k ∈ ks, k ∈ st'.levels.map Prod.fst := by
  intro ks
  induction ks with
  | nil =>
    intro st _ hv
    exact ⟨st, rfl, hv, fun k hk => hk, by simp⟩
  | cons q ks ih =>
    intro st hq hv
    have hqs : (getLevel g (levelFuel g) q st).isSome := by
      refine getLevel_isSome g (levelFuel g) st q (hq q (List.mem_cons_self q ks)) ?_ ?_
      · intro x hx
        rw [hv] at hx
        simp at hx
      · have : ((allIds g).filter (fun x => x ∉ st.visiting)).length ≤ (allIds g).length :=
          List.length_filter_le _ _
        unfold levelFuel
        omega
    cases hgl : getLevel g (levelFuel g) q st with
    | none => rw [hgl] at hqs; exact absurd hqs (by simp)
    | some ls =>
      have hstep : levelsStep g (some st) q = some ls.2 := by
        show (match getLevel g (levelFuel g) q st with
          | none => none
          | some ls => some ls.2) = some ls.2
        rw [hgl]
      have hv2 : ls.2.visiting = [] := by
        rw [getLevel_visiting g (levelFuel g) q st ls.1 ls.2 (by rw [hgl])]
        exact hv
      obtain ⟨st', hfold, hv', hgrow, hcov⟩ :=
        ih ls.2 (fun x hx => hq x (List.mem_cons_of_mem q hx)) hv2
      refine ⟨st', ?_, hv', ?_, ?_⟩
      · rw [List.foldl_cons, hstep]
        exact hfold
      · intro k hk
        exact hgrow k ((getLevel_levels_grow g (levelFuel g) q st ls.1 ls.2 (by rw [hgl])).1 k hk)
      · intro k hk
        rcases List.mem_cons.mp hk with rfl | hk'
        · exact hgrow k (getLevel_levels_grow g (levelFuel g) k st ls.1 ls.2 (by rw [hgl])).2
        · exact hcov k hk'

theorem computeLevels_spec (g : LineageGraph) :
    ∃ levels, computeLevels g = some levels ∧ ∀ k ∈ nodeKeys g, k ∈ levels.map Prod.fst := by
  obtain ⟨st', hfold, _, _, hcov⟩ := levelsFold_spec g (g.nodes.map Prod.fst) ⟨[], []⟩
    (fun q hq => mem_allIds_of_nodeKey g q hq) rfl
  refine ⟨st'.levels, ?_, hcov⟩
  unfold computeLevels
  rw [hfold]
  rfl

/-! ## `_find_clusters`: totality and coverage -/

theorem downstreamOf_eq_nil (g : LineageGraph) (n : String) (h : n ∉ allIds g) :
    downstreamOf g n = [] := by
  unfold downstreamOf
  rw [List.map_eq_nil_iff, List.filter_eq_nil_iff]
  intro e he
  simp only [decide_eq_true_eq]
  intro hc
  refine h ?_
  unfold allIds
  rw [List.mem_dedup]
  refine List.mem_append.mpr (Or.inr (List.mem_append.mpr (Or.inl ?_)))
  rw [← hc]
  exact List.mem_map.mpr ⟨e, he, rfl⟩

theorem upstreamOf_eq_nil (g : LineageGraph) (n : String) (h : n ∉ allIds g) :
    upstreamOf g n = [] := by
  unfold upstreamOf
  rw [List.map_eq_nil_iff, List.filter_eq_nil_iff]
  intro e he
  simp only [decide_eq_true_eq]
  intro hc
  refine h ?_
  unfold allIds
  rw [List.mem_dedup]
  refine List.mem_append.mpr (Or.inr (List.mem_append.mpr (Or.inr ?_)))
  rw [← hc]
  exact List.mem_map.mpr ⟨e, he, rfl⟩

theorem downstreamOf_length_le (g : LineageGraph) (n : String) :
    (downstreamOf g n).length ≤ g.edges.length := by
  unfold downstreamOf
  rw [List.length_map]
  exact List.length_filter_le _ _

theorem upstreamOf_length_le (g : LineageGraph) (n : String) :
    (upstreamOf g n).length ≤ g.edges.length := by
  unfold upstreamOf
  rw [List.length_map]
  exact List.length_filter_le _ _

theorem bfsCluster_isSome (g : LineageGraph) :
    ∀ (fuel : Nat) (queue cluster : List String),
      queue.length + (1 + 2 * g.edges.length) *
          ((allIds g).filter (fun x => x ∉ cluster)).length < fuel →
      (bfsCluster g fuel queue cluster).isSome := by
  intro fuel
  induction fuel with
  | zero => intro q c h; omega
  | succ fuel ih =>
    intro queue cluster h
    match queue with
    | [] => rfl
    | n :: queue =>
      simp only [bfsCluster]
      split
      · refine ih queue cluster ?_
        simp only [List.length_cons] at h
        omega
      · rename_i hnc
        refine ih _ _ ?_
        by_cases hna : n ∈ allIds g
        · have hlt : ((allIds g).filter (fun x => x ∉ cluster ++ [n])).length <
              ((allIds g).filter (fun x => x ∉ cluster)).length := by
            refine filter_length_lt (allIds g) n _ _ hna ?_ ?_ ?_
            · intro x hx
              simp only [decide_eq_true_eq, List.mem_append] at hx ⊢
              intro hc
              exact hx (Or.inl hc)
            · simp only [decide_eq_true_eq]
              exact hnc
            · simp only [decide_eq_false_iff_not, List.mem_append]
              intro hc
              exact hc (Or.inr (List.mem_singleton.mpr rfl))
          have hql : ((queue ++ (downstreamOf g n).filter (fun c => c ∉ cluster ++ [n])) ++
              (upstreamOf g n).filter (fun c => c ∉ cluster ++ [n])).length ≤
              queue.length + g.edges.length + g.edges.length := by
            simp only [List.length_append]
            have h1 : ((downstreamOf g n).filter (fun c => c ∉ cluster ++ [n])).length ≤
                g.edges.length :=
              Nat.le_trans (List.length_filter_le _ _) (downstreamOf_length_le g n)
            have h2 : ((upstreamOf g n).filter (fun c => c ∉ cluster ++ [n])).length ≤
                g.edges.length :=
              Nat.le_trans (List.length_filter_le _ _) (upstreamOf_length_le g n)
            omega
          have hmul : (1 + 2 * g.edges.length) *
                ((allIds g).filter (fun x => x ∉ cluster ++ [n])).length +
                (1 + 2 * g.edges.length) ≤
              (1 + 2 * g.edges.length) * ((allIds g).filter (fun x => x ∉ cluster)).length := by
            have := Nat.mul_le_mul_left (1 + 2 * g.edges.length) (Nat.succ_le_of_lt hlt)
            rw [Nat.mul_succ] at this
            exact this
          simp only [List.length_cons] at h
          generalize hA : (1 + 2 * g.edges.length) *
            ((allIds g).filter (fun x => x ∉ cluster ++ [n])).length = A at hmul ⊢
          generalize hB : (1 + 2 * g.edges.length) *
            ((allIds g).filter (fun x => x ∉ cluster)).length = B at hmul h
          omega
        · have hd := downstreamOf_eq_nil g n hna
          have hu := upstreamOf_eq_nil g n hna
          rw [hd, hu]
          simp only [List.filter_nil, List.append_nil]
          have hfe : (allIds g).filter (fun x => x ∉ cluster ++ [n]) =
              (allIds g).filter (fun x => x ∉ cluster) := by
            refine List.filter_congr ?_
            intro x hx
            simp only [decide_eq_decide, List.mem_append, List.mem_singleton]
            constructor
            · intro hc hcc
              exact hc (Or.inl hcc)
            · rintro hc (hcc | rfl)
              · exact hc hcc
              · exact hna hx
          rw [hfe]
          simp only [List.length_cons] at h
          omega

theorem bfsCluster_props (g : LineageGraph) :
    ∀ (fuel : Nat) (queue cluster res : List String),
      bfsCluster g fuel queue cluster = some res →
      cluster.Nodup → (∀ x ∈ cluster, x ∈ allIds g) → (∀ x ∈ queue, x ∈ allIds g) →
      res.Nodup ∧ (∀ x ∈ res, x ∈ allIds g) ∧ (∀ x ∈ cluster, x ∈ res) ∧
        ∀ x ∈ queue, x ∈ res := by
  intro fuel
  induction fuel with
  | zero =>
    intro queue cluster res h
    exact absurd h (by simp [bfsCluster])
  | succ fuel ih =>
    intro queue cluster res h hnd hca hqa
    match queue with
    | [] =>
      have hres : cluster = res := by
        have : (some cluster : Option (List String)) = some res := h
        rwa [Option.some_inj] at this
      subst hres
      exact ⟨hnd, hca, fun x hx => hx, by simp⟩
    | n :: queue =>
      simp only [bfsCluster] at h
      split at h
      · rename_i hin
        obtain ⟨h1, h2, h3, h4⟩ := ih queue cluster res h hnd hca
          (fun x hx => hqa x (List.mem_cons_of_mem n hx))
        refine ⟨h1, h2, h3, ?_⟩
        intro x hx
        rcases List.mem_cons.mp hx with rfl | hx'
        · exact h3 x hin
        · exact h4 x hx'
      · rename_i hnc
        have hna : n ∈ allIds g := hqa n (List.mem_cons_self n queue)
        obtain ⟨h1, h2, h3, h4⟩ := ih _ _ res h
          (by
            rw [List.nodup_append]
            exact ⟨hnd, List.nodup_singleton n, by simpa using hnc⟩)
          (by
            intro x hx
            rcases List.mem_append.mp hx with hx' | hx'
            · exact hca x hx'
            · rw [List.mem_singleton.mp hx']
              exact hna)
          (by
            intro x hx
            rcases List.mem_append.mp hx with hx' | hx'
            · rcases List.mem_append.mp hx' with hq | hdn
              · exact hqa x (List.mem_cons_of_mem n hq)
              · exact mem_allIds_of_downstream g n x (List.mem_of_mem_filter hdn)
            · exact mem_allIds_of_upstream g n x (List.mem_of_mem_filter hx'))
        refine ⟨h1, h2, ?_, ?_⟩
        · intro x hx
          exact h3 x (List.mem_append.mpr (Or.inl hx))
        · intro x hx
          rcases List.mem_cons.mp hx with rfl | hx'
          · exact h3 x (List.mem_append.mpr (Or.inr (List.mem_singleton.mpr rfl)))
          · exact h4 x (List.mem_append.mpr (Or.inl (List.mem_append.mpr (Or.inl hx'))))

theorem clustersFold_spec (g : LineageGraph) :
    ∀ (ks : List String) (vc : List String × List (List String)),
      (∀ k ∈ ks, k ∈ allIds g) → GoodClusters g vc →
      ∃ vc', ks.foldl (clustersStep g) (some vc) = some vc' ∧ GoodClusters g vc' ∧
        (∀ c ∈ vc.2, c ∈ vc'.2) ∧ (∀ x ∈ vc.1, x ∈ vc'.1) ∧ ∀ k ∈ ks, k ∈ vc'.1 := by
  intro ks
  induction ks with
  | nil =>
    intro vc _ hg
    exact ⟨vc, rfl, hg, fun c hc => hc, fun x hx => hx, by simp⟩
  | cons nid ks ih =>
    intro vc hks hg
    by_cases hv : nid ∈ vc.1
    · have hstep : clustersStep g (some vc) nid = some vc := by
        show (if nid ∈ vc.1 then some vc else _) = some vc
        rw [if_pos hv]
      obtain ⟨vc', hfold, hg', hcl, hvis, hcov⟩ :=
        ih vc (fun k hk => hks k (List.mem_cons_of_mem nid hk)) hg
      refine ⟨vc', ?_, hg', hcl, hvis, ?_⟩
      · rw [List.foldl_cons, hstep]
        exact hfold
      · intro k hk
        rcases List.mem_cons.mp hk with rfl | hk'
        · exact hvis k hv
        · exact hcov k hk'
    · have hbs : (bfsCluster g (clusterFuel g) [nid] []).isSome := by
        refine bfsCluster_isSome g (clusterFuel g) [nid] [] ?_
        have hfe : (allIds g).filter (fun x => x ∉ ([] : List String)) = allIds g := by
          refine List.filter_eq_self.mpr ?_
          intro x _
          simp
        rw [hfe]
        unfold clusterFuel
        simp only [List.length_cons, List.length_nil]
        omega
      cases hbf : bfsCluster g (clusterFuel g) [nid] [] with
      | none => rw [hbf] at hbs; exact absurd hbs (by simp)
      | some cluster =>
        obtain ⟨hcn, hcall, _, hseed⟩ := bfsCluster_props g (clusterFuel g) [nid] [] cluster hbf
          List.nodup_nil (by simp)
          (by
            intro x hx
            rw [List.mem_singleton.mp hx]
            exact hks nid (List.mem_cons_self nid ks))
        have hstep : clustersStep g (some vc) nid =
            some (vc.1 ++ cluster.filter (fun x => x ∉ vc.1), vc.2 ++ [cluster]) := by
          show (if nid ∈ vc.1 then some vc else _) = _
          rw [if_neg hv, hbf]
        have hg2 : GoodClusters g (vc.1 ++ cluster.filter (fun x => x ∉ vc.1),
            vc.2 ++ [cluster]) := by
          obtain ⟨hg1, hg2⟩ := hg
          constructor
          · intro x hx
            rcases List.mem_append.mp hx with hx' | hx'
            · obtain ⟨c, hc, hxc⟩ := hg1 x hx'
              exact ⟨c, List.mem_append.mpr (Or.inl hc), hxc⟩
            · exact ⟨cluster, List.mem_append.mpr (Or.inr (List.mem_singleton.mpr rfl)),
                List.mem_of_mem_filter hx'⟩
          · intro c hc
            rcases List.mem_append.mp hc with hc' | hc'
            · exact hg2 c hc'
            · rw [List.mem_singleton.mp hc']
              refine ⟨hcn, ?_, hcall⟩
              intro hnil
              rw [hnil] at hseed
              exact absurd (hseed nid (List.mem_singleton.mpr rfl)) (by simp)
        obtain ⟨vc', hfold, hg', hcl, hvis, hcov⟩ :=
          ih _ (fun k hk => hks k (List.mem_cons_of_mem nid hk)) hg2
        refine ⟨vc', ?_, hg', ?_, ?_, ?_⟩
        · rw [List.foldl_cons, hstep]
          exact hfold
        · intro c hc
          exact hcl c (List.mem_append.mpr (Or.inl hc))
        · intro x hx
          exact hvis x (List.mem_append.mpr (Or.inl hx))
        · intro k hk
          rcases List.mem_cons.mp hk with rfl | hk'
          · refine hvis k (List.mem_append.mpr (Or.inr ?_))
            rw [List.mem_filter]
            refine ⟨hseed k (List.mem_singleton.mpr rfl), ?_⟩
            simp only [decide_eq_true_eq]
            exact hv
          · exact hcov k hk'

theorem find_clusters_spec (g : LineageGraph) :
    ∃ cls, find_clusters g = some cls ∧
      (∀ c ∈ cls, c.Nodup ∧ c ≠ [] ∧ ∀ x ∈ c, x ∈ allIds g) ∧
      ∀ k ∈ nodeKeys g, ∃ c ∈ cls, k ∈ c := by
  obtain ⟨vc', hfold, hg', _, _, hcov⟩ := clustersFold_spec g (g.nodes.map Prod.fst) ([], [])
    (fun k hk => mem_allIds_of_nodeKey g k hk)
    ⟨by simp, by simp⟩
  refine ⟨vc'.2, ?_, hg'.2, ?_⟩
  · unfold find_clusters
    rw [hfold]
    rfl
  · intro k hk
    exact hg'.1 k (hcov k hk)

/-! ## Positions as a dict: entries of `applyWrites` -/

theorem mem_updateAssoc_elim {κ α : Type} [DecidableEq κ] :
    ∀ (l : List (κ × α)) (k : κ) (v : α) (e : κ × α),
      e ∈ updateAssoc l k v → e = (k, v) ∨ e ∈ l := by
  intro l
  induction l with
  | nil =>
    intro k v e he
    simp [updateAssoc] at he
    exact Or.inl he
  | cons p t ih =>
    intro k v e he
    obtain ⟨a, b⟩ := p
    by_cases h : a = k
    · subst h
      rw [show updateAssoc ((a, b) :: t) a v = (a, v) :: t from by simp [updateAssoc]] at he
      rcases List.mem_cons.mp he with rfl | he'
      · exact Or.inl rfl
      · exact Or.inr (List.mem_cons_of_mem _ he')
    · rw [show updateAssoc ((a, b) :: t) k v = (a, b) :: updateAssoc t k v from by
        simp [updateAssoc, h]] at he
      rcases List.mem_cons.mp he with rfl | he'
      · exact Or.inr (List.mem_cons_self _ _)
      · rcases ih k v e he' with h' | h'
        · exact Or.inl h'
        · exact Or.inr (List.mem_cons_of_mem _ h')

theorem mem_applyWrites_elim :
    ∀ (ws ps : List (String × ℚ × ℚ)) (e : String × ℚ × ℚ),
      e ∈ applyWrites ps ws → e ∈ ws ∨ e ∈ ps := by
  intro ws
  induction ws with
  | nil => intro ps e he; exact Or.inr he
  | cons w ws ih =>
    intro ps e he
    have he' : e ∈ applyWrites (updateAssoc ps w.1 w.2) ws := he
    rcases ih _ e he' with h | h
    · exact Or.inl (List.mem_cons_of_mem w h)
    · rcases mem_updateAssoc_elim ps w.1 w.2 e h with h' | h'
      · exact Or.inl (by rw [h']; exact List.mem_cons_self _ _)
      · exact Or.inr h'

theorem mem_map_fst_applyWrites :
    ∀ (ws ps : List (String × ℚ × ℚ)) (k : String),
      k ∈ (applyWrites ps ws).map Prod.fst ↔
        k ∈ ps.map Prod.fst ∨ k ∈ ws.map Prod.fst := by
  intro ws
  induction ws with
  | nil => intro ps k; simp [applyWrites]
  | cons w ws ih =>
    intro ps k
    have h0 : applyWrites ps (w :: ws) = applyWrites (updateAssoc ps w.1 w.2) ws := rfl
    rw [h0, ih, mem_map_fst_updateAssoc]
    simp only [List.map_cons, List.mem_cons]
    tauto

theorem nodup_map_fst_updateAssoc {κ α : Type} [DecidableEq κ] :
    ∀ (l : List (κ × α)) (k : κ) (v : α), (l.map Prod.fst).Nodup →
      ((updateAssoc l k v).map Prod.fst).Nodup := by
  intro l
  induction l with
  | nil => intro k v _; simp [updateAssoc]
  | cons p t ih =>
    intro k v h
    obtain ⟨a, b⟩ := p
    rw [List.map_cons, List.nodup_cons] at h
    by_cases ha : a = k
    · subst ha
      rw [show updateAssoc ((a, b) :: t) a v = (a, v) :: t from by simp [updateAssoc]]
      rw [List.map_cons, List.nodup_cons]
      exact h
    · rw [show updateAssoc ((a, b) :: t) k v = (a, b) :: updateAssoc t k v from by
        simp [updateAssoc, ha]]
      rw [List.map_cons, List.nodup_cons]
      refine ⟨?_, ih k v h.2⟩
      intro hc
      rcases (mem_map_fst_updateAssoc t k a v).mp hc with rfl | hc'
      · exact ha rfl
      · exact h.1 hc'

theorem nodup_map_fst_applyWrites :
    ∀ (ws ps : List (String × ℚ × ℚ)), (ps.map Prod.fst).Nodup →
      ((applyWrites ps ws).map Prod.fst).Nodup := by
  intro ws
  induction ws with
  | nil => intro ps h; exact h
  | cons w ws ih =>
    intro ps h
    exact ih _ (nodup_map_fst_updateAssoc ps w.1 w.2 h)

theorem lookupA_eq_some_of_mem_nodup {κ α : Type} [DecidableEq κ] :
    ∀ (l : List (κ × α)), (l.map Prod.fst).Nodup → ∀ (k : κ) (v : α),
      (k, v) ∈ l → lookupA l k = some v := by
  intro l
  induction l with
  | nil => intro _ k v h; simp at h
  | cons p t ih =>
    intro hnd k v h
    obtain ⟨a, b⟩ := p
    rw [List.map_cons, List.nodup_cons] at hnd
    rcases List.mem_cons.mp h with heq | h'
    · rw [Prod.mk.injEq] at heq
      show (if a = k then some b else lookupA t k) = some v
      rw [if_pos heq.1.symm, heq.2]
    · show (if a = k then some b else lookupA t k) = some v
      have hak : a ≠ k := by
        rintro rfl
        exact hnd.1 (List.mem_map.mpr ⟨(a, v), h', rfl⟩)
      rw [if_neg hak]
      exact ih hnd.2 k v h'

/-! ## Grouping by level -/

theorem map_fst_appendAt :
    ∀ (gs : List (Nat × List String)) (lvl : Nat) (n : String),
      (appendAt gs lvl n).map Prod.fst =
        if lvl ∈ gs.map Prod.fst then gs.map Prod.fst else gs.map Prod.fst ++ [lvl] := by
  intro gs
  induction gs with
  | nil => intro lvl n; simp [appendAt]
  | cons p t ih =>
    intro lvl n
    obtain ⟨l, ns⟩ := p
    by_cases h : l = lvl
    · subst h
      rw [show appendAt ((l, ns) :: t) l n = (l, ns ++ [n]) :: t from by simp [appendAt]]
      simp
    · rw [show appendAt ((l, ns) :: t) lvl n = (l, ns) :: appendAt t lvl n from by
        simp [appendAt, h]]
      simp only [List.map_cons, ih]
      by_cases hm : lvl ∈ t.map Prod.fst
      · rw [if_pos hm, if_pos (List.mem_cons_of_mem l hm)]
      · rw [if_neg hm, if_neg (by
          intro hc
          rcases List.mem_cons.mp hc with hc' | hc'
          · exact h hc'.symm
          · exact hm hc')]
        rfl

theorem mem_appendAt :
    ∀ (gs : List (Nat × List String)) (lvl : Nat) (n x : String),
      (∃ lv ∈ appendAt gs lvl n, x ∈ lv.2) ↔ x = n ∨ ∃ lv ∈ gs, x ∈ lv.2 := by
  intro gs
  induction gs with
  | nil =>
    intro lvl n x
    constructor
    · rintro ⟨lv, hlv, hx⟩
      simp [appendAt] at hlv
      rw [hlv] at hx
      simp at hx
      exact Or.inl hx
    · rintro (rfl | ⟨lv, hlv, hx⟩)
      · exact ⟨(lvl, [x]), by simp [appendAt], by simp⟩
      · simp at hlv
  | cons p t ih =>
    intro lvl n x
    obtain ⟨l, ns⟩ := p
    by_cases h : l = lvl
    · subst h
      rw [show appendAt ((l, ns) :: t) l n = (l, ns ++ [n]) :: t from by simp [appendAt]]
      constructor
      · rintro ⟨lv, hlv, hx⟩
        rcases List.mem_cons.mp hlv with heq | hlv'
        · rw [heq] at hx
          rcases List.mem_append.mp hx with hx' | hx'
          · exact Or.inr ⟨(l, ns), List.mem_cons_self _ _, hx'⟩
          · exact Or.inl (List.mem_singleton.mp hx')
        · exact Or.inr ⟨lv, List.mem_cons_of_mem _ hlv', hx⟩
      · rintro (rfl | ⟨lv, hlv, hx⟩)
        · exact ⟨(l, ns ++ [x]), List.mem_cons_self _ _,
            List.mem_append.mpr (Or.inr (by simp))⟩
        · rcases List.mem_cons.mp hlv with heq | hlv'
          · refine ⟨(l, ns ++ [n]), List.mem_cons_self _ _,
              List.mem_append.mpr (Or.inl ?_)⟩
            rw [heq] at hx
            exact hx
          · exact ⟨lv, List.mem_cons_of_mem _ hlv', hx⟩
    · rw [show appendAt ((l, ns) :: t) lvl n = (l, ns) :: appendAt t lvl n from by
        simp [appendAt, h]]
      constructor
      · rintro ⟨lv, hlv, hx⟩
        rcases List.mem_cons.mp hlv with heq | hlv'
        · refine Or.inr ⟨(l, ns), List.mem_cons_self _ _, ?_⟩
          rw [heq] at hx
          exact hx
        · rcases (ih lvl n x).mp ⟨lv, hlv', hx⟩ with h' | ⟨lv', hlv'', hx'⟩
          · exact Or.inl h'
          · exact Or.inr ⟨lv', List.mem_cons_of_mem _ hlv'', hx'⟩
      · rintro (rfl | ⟨lv, hlv, hx⟩)
        · obtain ⟨lv', hlv', hx'⟩ := (ih lvl x x).mpr (Or.inl rfl)
          exact ⟨lv', List.mem_cons_of_mem _ hlv', hx'⟩
        · rcases List.mem_cons.mp hlv with heq | hlv'
          · refine ⟨(l, ns), List.mem_cons_self _ _, ?_⟩
            rw [heq] at hx
            exact hx
          · obtain ⟨lv', hlv'', hx'⟩ := (ih lvl n x).mpr (Or.inr ⟨lv, hlv', hx⟩)
            exact ⟨lv', List.mem_cons_of_mem _ hlv'', hx'⟩

theorem goodGroups_appendAt (levels : List (String × Nat)) :
    ∀ (gs : List (Nat × List String)) (lvl : Nat) (n : String), GoodGroups levels gs →
      lookupA levels n = some lvl → (¬∃ lv ∈ gs, n ∈ lv.2) →
      GoodGroups levels (appendAt gs lvl n) := by
  intro gs
  induction gs with
  | nil =>
    intro lvl n _ hlk _
    refine ⟨by simp [appendAt], ?_⟩
    intro lv hlv
    simp [appendAt] at hlv
    rw [hlv]
    refine ⟨by simp, List.nodup_singleton n, ?_⟩
    intro x hx
    rw [List.mem_singleton.mp hx]
    exact hlk
  | cons p t ih =>
    intro lvl n hg hlk hfresh
    obtain ⟨hkeys, hlists⟩ := hg
    obtain ⟨l, ns⟩ := p
    by_cases h : l = lvl
    · subst h
      rw [show appendAt ((l, ns) :: t) l n = (l, ns ++ [n]) :: t from by simp [appendAt]]
      refine ⟨by simpa using hkeys, ?_⟩
      intro lv hlv
      rcases List.mem_cons.mp hlv with rfl | hlv'
      · have hln := hlists (l, ns) (List.mem_cons_self _ _)
        refine ⟨by simp, ?_, ?_⟩
        · rw [List.nodup_append]
          refine ⟨hln.2.1, List.nodup_singleton n, ?_⟩
          simp only [List.disjoint_singleton]
          intro hc
          exact hfresh ⟨(l, ns), List.mem_cons_self _ _, hc⟩
        · intro x hx
          rcases List.mem_append.mp hx with hx' | hx'
          · exact hln.2.2 x hx'
          · rw [List.mem_singleton.mp hx']
            exact hlk
      · exact hlists lv (List.mem_cons_of_mem _ hlv')
    · rw [show appendAt ((l, ns) :: t) lvl n = (l, ns) :: appendAt t lvl n from by
        simp [appendAt, h]]
      rw [List.map_cons, List.nodup_cons] at hkeys
      have hrec := ih lvl n
        ⟨hkeys.2, fun lv hlv => hlists lv (List.mem_cons_of_mem _ hlv)⟩
        hlk
        (by
          intro hc
          obtain ⟨lv', hlv'', hx⟩ := hc
          exact hfresh ⟨lv', List.mem_cons_of_mem _ hlv'', hx⟩)
      refine ⟨?_, ?_⟩
      · rw [List.map_cons, List.nodup_cons]
        refine ⟨?_, hrec.1⟩
        rw [map_fst_appendAt]
        by_cases hm : lvl ∈ t.map Prod.fst
        · rw [if_pos hm]
          exact hkeys.1
        · rw [if_neg hm]
          intro hc
          rcases List.mem_append.mp hc with hc' | hc'
          · exact hkeys.1 hc'
          · exact h (List.mem_singleton.mp hc')
      · intro lv hlv
        rcases List.mem_cons.mp hlv with heq | hlv'
        · rw [heq]
          exact hlists (l, ns) (List.mem_cons_self _ _)
        · exact hrec.2 lv hlv'

theorem groupFold_spec (levels : List (String × Nat)) :
    ∀ (cluster : List String) (gs0 : List (Nat × List String)),
      cluster.Nodup → (∀ x ∈ cluster, (lookupA levels x).isSome) →
      GoodGroups levels gs0 → (∀ x ∈ cluster, ¬∃ lv ∈ gs0, x ∈ lv.2) →
      ∃ gs, cluster.foldl (groupStep levels) (some gs0) = some gs ∧
        GoodGroups levels gs ∧
        ∀ x, (∃ lv ∈ gs, x ∈ lv.2) ↔ x ∈ cluster ∨ ∃ lv ∈ gs0, x ∈ lv.2 := by
  intro cluster
  induction cluster with
  | nil =>
    intro gs0 _ _ hg _
    exact ⟨gs0, rfl, hg, by simp⟩
  | cons n cluster ih =>
    intro gs0 hnd hlk hg hfresh
    rw [List.nodup_cons] at hnd
    have hlkn : (lookupA levels n).isSome := hlk n (List.mem_cons_self n cluster)
    cases hl : lookupA levels n with
    | none => rw [hl] at hlkn; exact absurd hlkn (by simp)
    | some lvl =>
      have hstep : groupStep levels (some gs0) n = some (appendAt gs0 lvl n) := by
        show (match lookupA levels n with
          | none => none
          | some lvl => some (appendAt gs0 lvl n)) = _
        rw [hl]
      have hg1 := goodGroups_appendAt levels gs0 lvl n hg hl
        (hfresh n (List.mem_cons_self n cluster))
      obtain ⟨gs, hfold, hgood, hmem⟩ := ih (appendAt gs0 lvl n) hnd.2
        (fun x hx => hlk x (List.mem_cons_of_mem n hx)) hg1
        (by
          intro x hx hc
          rcases (mem_appendAt gs0 lvl n x).mp hc with rfl | hc'
          · exact hnd.1 hx
          · exact hfresh x (List.mem_cons_of_mem n hx) hc')
      refine ⟨gs, ?_, hgood, ?_⟩
      · rw [List.foldl_cons, hstep]
        exact hfold
      · intro x
        rw [hmem x, mem_appendAt]
        simp only [List.mem_cons]
        tauto

theorem groupByLevel_spec (levels : List (String × Nat)) (cluster : List String)
    (hnd : cluster.Nodup) (hlk : ∀ x ∈ cluster, (lookupA levels x).isSome) :
    ∃ gs, groupByLevel levels cluster = some gs ∧ GoodGroups levels gs ∧
      ∀ x, (∃ lv ∈ gs, x ∈ lv.2) ↔ x ∈ cluster := by
  obtain ⟨gs, hfold, hgood, hmem⟩ := groupFold_spec levels cluster [] hnd hlk
    ⟨by simp, by simp⟩ (by simp)
  refine ⟨gs, hfold, hgood, ?_⟩
  intro x
  rw [hmem x]
  simp

/-! ## Sorting the level lists and the band height -/

theorem sortClusterLevels_map_fst (g : LineageGraph) (positions : List (String × ℚ × ℚ))
    (gs : List (Nat × List String)) :
    (sortClusterLevels g positions gs).map Prod.fst = gs.map Prod.fst := by
  unfold sortClusterLevels
  rw [List.map_map]
  refine List.map_congr_left ?_
  intro lv _
  by_cases h : lv.1 = 0 <;> simp [h]

theorem mem_sortClusterLevels (g : LineageGraph) (positions : List (String × ℚ × ℚ))
    (gs : List (Nat × List String)) (lv' : Nat × List String)
    (h : lv' ∈ sortClusterLevels g positions gs) :
    ∃ lv ∈ gs, lv'.1 = lv.1 ∧ lv'.2.Perm lv.2 := by
  obtain ⟨lv, hlv, heq⟩ := List.mem_map.mp h
  by_cases h0 : lv.1 = 0
  · rw [if_pos h0] at heq
    exact ⟨lv, hlv, by rw [← heq], by rw [← heq]; exact List.perm_insertionSort _ _⟩
  · rw [if_neg h0] at heq
    exact ⟨lv, hlv, by rw [← heq], by rw [← heq]; exact List.perm_insertionSort _ _⟩

theorem goodGroups_sortClusterLevels (g : LineageGraph) (positions : List (String × ℚ × ℚ))
    (levels : List (String × Nat)) (gs : List (Nat × List String))
    (hg : GoodGroups levels gs) : GoodGroups levels (sortClusterLevels g positions gs) := by
  obtain ⟨hkeys, hlists⟩ := hg
  constructor
  · rw [sortClusterLevels_map_fst]
    exact hkeys
  · intro lv' hlv'
    obtain ⟨lv, hlv, hfst, hperm⟩ := mem_sortClusterLevels g positions gs lv' hlv'
    obtain ⟨hne, hnd, hcorr⟩ := hlists lv hlv
    refine ⟨?_, hperm.nodup_iff.mpr hnd, ?_⟩
    · intro hnil
      rw [hnil] at hperm
      exact hne (List.Perm.nil_eq hperm).symm
    · intro x hx
      rw [hfst]
      exact hcorr x (hperm.mem_iff.mp hx)

theorem mem_groups_sortClusterLevels (g : LineageGraph) (positions : List (String × ℚ × ℚ))
    (gs : List (Nat × List String)) (x : String) :
    (∃ lv ∈ sortClusterLevels g positions gs, x ∈ lv.2) ↔ ∃ lv ∈ gs, x ∈ lv.2 := by
  constructor
  · rintro ⟨lv', hlv', hx⟩
    obtain ⟨lv, hlv, _, hperm⟩ := mem_sortClusterLevels g positions gs lv' hlv'
    exact ⟨lv, hlv, hperm.mem_iff.mp hx⟩
  · rintro ⟨lv, hlv, hx⟩
    by_cases h0 : lv.1 = 0
    · refine ⟨(lv.1, List.insertionSort (fun a b => a ≤ b) lv.2), ?_, ?_⟩
      · exact List.mem_map.mpr ⟨lv, hlv, by rw [if_pos h0]⟩
      · exact (List.mem_insertionSort _).mpr hx
    · refine ⟨(lv.1, List.insertionSort
        (fun a b => sortKeyFor g positions a ≤ sortKeyFor g positions b) lv.2), ?_, ?_⟩
      · exact List.mem_map.mpr ⟨lv, hlv, by rw [if_neg h0]⟩
      · exact (List.mem_insertionSort _).mpr hx

theorem sortClusterLevels_ne_nil (g : LineageGraph) (positions : List (String × ℚ × ℚ))
    (gs : List (Nat × List String)) (hne : gs ≠ []) :
    sortClusterLevels g positions gs ≠ [] := by
  intro hc
  have := congrArg List.length hc
  rw [show (sortClusterLevels g positions gs).length = gs.length from
    List.length_map _ _] at this
  exact hne (List.length_eq_zero.mp this)

theorem foldl_max_base_le : ∀ (xs : List Nat) (x : Nat), x ≤ xs.foldl max x := by
  intro xs
  induction xs with
  | nil => intro x; exact Nat.le_refl x
  | cons z xs ih => intro x; exact Nat.le_trans (Nat.le_max_left x z) (ih (max x z))

theorem mem_le_foldl_max : ∀ (xs : List Nat) (x y : Nat), y ∈ xs → y ≤ xs.foldl max x := by
  intro xs
  induction xs with
  | nil => intro x y h; simp at h
  | cons z xs ih =>
    intro x y h
    rcases List.mem_cons.mp h with rfl | h'
    · exact Nat.le_trans (Nat.le_max_right x y) (foldl_max_base_le xs (max x y))
    · exact ih (max x z) y h'

theorem maxRows_spec (gs : List (Nat × List String)) (hne : gs ≠ []) :
    ∃ mr, maxRows gs = some mr ∧ ∀ lv ∈ gs, lv.2.length ≤ mr := by
  cases gs with
  | nil => exact absurd rfl hne
  | cons lv0 t =>
    refine ⟨(t.map (fun lv => lv.2.length)).foldl max lv0.2.length, by simp [maxRows], ?_⟩
    intro lv hlv
    rcases List.mem_cons.mp hlv with rfl | h'
    · exact foldl_max_base_le _ _
    · exact mem_le_foldl_max _ _ _ (List.mem_map.mpr ⟨lv, h', rfl⟩)

/-! ## The cluster's placement writes -/

theorem mem_of_lookupA_eq_some {κ α : Type} [DecidableEq κ] :
    ∀ (l : List (κ × α)) (k : κ) (v : α), lookupA l k = some v → (k, v) ∈ l := by
  intro l
  induction l with
  | nil => intro k v h; simp [lookupA] at h
  | cons p t ih =>
    intro k v h
    obtain ⟨a, b⟩ := p
    by_cases ha : a = k
    · subst ha
      rw [show lookupA ((a, b) :: t) a = some b from by simp [lookupA]] at h
      rw [Option.some_inj] at h
      rw [← h]
      exact List.mem_cons_self _ _
    · rw [show lookupA ((a, b) :: t) k = lookupA t k from by simp [lookupA, ha]] at h
      exact List.mem_cons_of_mem _ (ih k v h)

theorem placeColumn_map_fst (ns : List String) (x y_offset : ℚ) :
    (placeColumn ns x y_offset).map Prod.fst = ns := by
  unfold placeColumn
  rw [List.map_map]
  exact List.enum_map_snd ns

theorem mem_placeColumn (ns : List String) (x y_offset : ℚ) (w : String × ℚ × ℚ) :
    w ∈ placeColumn ns x y_offset ↔
      ∃ i : Nat, ns[i]? = some w.1 ∧ w.2 = (x, y_offset + (i : ℚ) * 130) := by
  unfold placeColumn
  rw [List.mem_map]
  constructor
  · rintro ⟨p, hp, heq⟩
    obtain ⟨i, a⟩ := p
    have hget : ns[i]? = some a := List.mk_mem_enum_iff_getElem?.mp hp
    refine ⟨i, ?_, ?_⟩
    · rw [← heq]
      exact hget
    · rw [← heq]
  · rintro ⟨i, hget, hw⟩
    refine ⟨(i, w.1), List.mk_mem_enum_iff_getElem?.mpr hget, ?_⟩
    rw [Prod.ext_iff]
    exact ⟨rfl, hw.symm⟩

theorem columnOf_map_fst (gs : List (Nat × List String)) (cy : ℚ) (mr : Nat) (lvl : Nat) :
    (columnOf gs cy mr lvl).map Prod.fst = (lookupA gs lvl).getD [] :=
  placeColumn_map_fst _ _ _

theorem mem_columnOf (gs : List (Nat × List String)) (cy : ℚ) (mr : Nat) (lvl : Nat)
    (w : String × ℚ × ℚ) :
    w ∈ columnOf gs cy mr lvl ↔
      ∃ i : Nat, ((lookupA gs lvl).getD [])[i]? = some w.1 ∧
        w.2 = ((lvl : ℚ) * 380 + 80,
          cy + (((mr : ℚ) - 1) * 130 - (((((lookupA gs lvl).getD []).length : ℚ)) - 1) * 130) / 2 +
            (i : ℚ) * 130) :=
  mem_placeColumn _ _ _ w

theorem exists_entry_of_mem_keys (gs : List (Nat × List String))
    (hkeys : (gs.map Prod.fst).Nodup) (lvl : Nat) (h : lvl ∈ gs.map Prod.fst) :
    ∃ ns, (lvl, ns) ∈ gs ∧ lookupA gs lvl = some ns := by
  obtain ⟨lv, hlv, hfst⟩ := List.mem_map.mp h
  refine ⟨lv.2, ?_, ?_⟩
  · rw [← hfst]
    exact hlv
  · rw [← hfst]
    exact lookupA_eq_some_of_mem_nodup gs hkeys lv.1 lv.2 hlv

theorem columnOf_y_bounds (levels : List (String × Nat)) (gs : List (Nat × List String))
    (hg : GoodGroups levels gs) (cy : ℚ) (mr : Nat) (lvl : Nat)
    (hlvl : lvl ∈ gs.map Prod.fst) (hmr : ∀ lv ∈ gs, lv.2.length ≤ mr)
    (w : String × ℚ × ℚ) (hw : w ∈ columnOf gs cy mr lvl) :
    cy ≤ w.2.2 ∧ w.2.2 ≤ cy + ((mr : ℚ) - 1) * 130 := by
  obtain ⟨ns, hmem, hlk⟩ := exists_entry_of_mem_keys gs hg.1 lvl hlvl
  obtain ⟨hne, _, _⟩ := hg.2 (lvl, ns) hmem
  obtain ⟨i, hget, hv⟩ := (mem_columnOf gs cy mr lvl w).mp hw
  rw [hlk] at hget hv
  simp only [Option.getD_some] at hget hv
  have hilt : i < ns.length := by
    obtain ⟨h', _⟩ := List.getElem?_eq_some_iff.mp hget
    exact h'
  have hlen1 : 1 ≤ ns.length := by
    cases ns with
    | nil => exact absurd rfl hne
    | cons a t => simp
  have hlenmr : ns.length ≤ mr := hmr (lvl, ns) hmem
  have hcast1 : (1 : ℚ) ≤ (ns.length : ℚ) := by exact_mod_cast hlen1
  have hcast2 : (ns.length : ℚ) ≤ (mr : ℚ) := by exact_mod_cast hlenmr
  have hcast3 : (i : ℚ) + 1 ≤ (ns.length : ℚ) := by exact_mod_cast hilt
  have hcast4 : (0 : ℚ) ≤ (i : ℚ) := by positivity
  have hy : w.2.2 = cy + (((mr : ℚ) - 1) * 130 - ((ns.length : ℚ) - 1) * 130) / 2 +
      (i : ℚ) * 130 := by
    rw [hv]
  constructor
  · rw [hy]
    nlinarith
  · rw [hy]
    nlinarith

theorem clusterWrites_value_inj (levels : List (String × Nat)) (gs : List (Nat × List String))
    (hg : GoodGroups levels gs) (cy : ℚ) (mr : Nat) (w1 w2 : String × ℚ × ℚ)
    (h1 : w1 ∈ clusterWrites gs cy mr) (h2 : w2 ∈ clusterWrites gs cy mr)
    (hv : w1.2 = w2.2) : w1.1 = w2.1 := by
  obtain ⟨lvl1, hlvl1, hw1⟩ := List.mem_flatMap.mp h1
  obtain ⟨lvl2, hlvl2, hw2⟩ := List.mem_flatMap.mp h2
  have hlvl1' : lvl1 ∈ gs.map Prod.fst := (List.mem_insertionSort _).mp hlvl1
  have hlvl2' : lvl2 ∈ gs.map Prod.fst := (List.mem_insertionSort _).mp hlvl2
  obtain ⟨ns1, hm1, hlk1⟩ := exists_entry_of_mem_keys gs hg.1 lvl1 hlvl1'
  obtain ⟨ns2, hm2, hlk2⟩ := exists_entry_of_mem_keys gs hg.1 lvl2 hlvl2'
  obtain ⟨i1, hget1, hv1⟩ := (mem_columnOf gs cy mr lvl1 w1).mp hw1
  obtain ⟨i2, hget2, hv2⟩ := (mem_columnOf gs cy mr lvl2 w2).mp hw2
  rw [hlk1] at hget1 hv1
  rw [hlk2] at hget2 hv2
  simp only [Option.getD_some] at hget1 hv1 hget2 hv2
  rw [hv1, hv2, Prod.mk.injEq] at hv
  have hlvl_eq : lvl1 = lvl2 := by
    have hx := hv.1
    have : (lvl1 : ℚ) = (lvl2 : ℚ) := by linarith
    exact_mod_cast this
  subst hlvl_eq
  have hns : ns1 = ns2 := by
    rw [hlk1] at hlk2
    rw [Option.some_inj] at hlk2
    exact hlk2
  subst hns
  have hieq : i1 = i2 := by
    have hy := hv.2
    have : (i1 : ℚ) = (i2 : ℚ) := by linarith
    exact_mod_cast this
  subst hieq
  rw [hget1] at hget2
  rw [Option.some_inj] at hget2
  exact hget2

theorem mem_map_fst_clusterWrites (levels : List (String × Nat))
    (gs : List (Nat × List String)) (hg : GoodGroups levels gs) (cy : ℚ) (mr : Nat)
    (k : String) :
    k ∈ (clusterWrites gs cy mr).map Prod.fst ↔ ∃ lv ∈ gs, k ∈ lv.2 := by
  constructor
  · intro h
    obtain ⟨w, hw, hfst⟩ := List.mem_map.mp h
    obtain ⟨lvl, hlvl, hwc⟩ := List.mem_flatMap.mp hw
    obtain ⟨ns, hm, hlk⟩ := exists_entry_of_mem_keys gs hg.1 lvl
      ((List.mem_insertionSort _).mp hlvl)
    obtain ⟨i, hget, _⟩ := (mem_columnOf gs cy mr lvl w).mp hwc
    rw [hlk] at hget
    simp only [Option.getD_some] at hget
    refine ⟨(lvl, ns), hm, ?_⟩
    rw [← hfst]
    exact List.mem_iff_getElem?.mpr ⟨i, hget⟩
  · rintro ⟨lv, hlv, hk⟩
    have hlk : lookupA gs lv.1 = some lv.2 :=
      lookupA_eq_some_of_mem_nodup gs hg.1 lv.1 lv.2 (by
        rw [show (lv.1, lv.2) = lv from rfl]
        exact hlv)
    obtain ⟨i, hget⟩ := List.mem_iff_getElem?.mp hk
    refine List.mem_map.mpr ⟨(k, (lv.1 : ℚ) * 380 + 80,
      cy + (((mr : ℚ) - 1) * 130 - ((lv.2.length : ℚ) - 1) * 130) / 2 + (i : ℚ) * 130),
      ?_, rfl⟩
    refine List.mem_flatMap.mpr ⟨lv.1, ?_, ?_⟩
    · refine (List.mem_insertionSort _).mpr ?_
      exact List.mem_map.mpr ⟨lv, hlv, rfl⟩
    · refine (mem_columnOf gs cy mr lv.1 _).mpr ⟨i, ?_, ?_⟩
      · rw [hlk]
        simp only [Option.getD_some]
        exact hget
      · simp [hlk]

theorem nodup_map_fst_clusterWrites (levels : List (String × Nat))
    (gs : List (Nat × List String)) (hg : GoodGroups levels gs) (cy : ℚ) (mr : Nat) :
    ((clusterWrites gs cy mr).map Prod.fst).Nodup := by
  have haux : ∀ (lvls : List Nat), lvls.Nodup → (∀ l ∈ lvls, l ∈ gs.map Prod.fst) →
      ((lvls.flatMap (columnOf gs cy mr)).map Prod.fst).Nodup := by
    intro lvls
    induction lvls with
    | nil => intro _ _; simp
    | cons l ls ih =>
      intro hnd hmem
      rw [List.nodup_cons] at hnd
      rw [List.flatMap_cons, List.map_append]
      rw [List.nodup_append]
      obtain ⟨ns, hm, hlk⟩ := exists_entry_of_mem_keys gs hg.1 l
        (hmem l (List.mem_cons_self l ls))
      refine ⟨?_, ih hnd.2 (fun l' hl' => hmem l' (List.mem_cons_of_mem l hl')), ?_⟩
      · rw [columnOf_map_fst, hlk]
        simp only [Option.getD_some]
        exact (hg.2 (l, ns) hm).2.1
      · intro x hx1 hx2
        rw [columnOf_map_fst, hlk] at hx1
        simp only [Option.getD_some] at hx1
        obtain ⟨w, hw, hfst⟩ := List.mem_map.mp hx2
        obtain ⟨l', hl', hwc⟩ := List.mem_flatMap.mp hw
        obtain ⟨ns', hm', hlk'⟩ := exists_entry_of_mem_keys gs hg.1 l'
          (hmem l' (List.mem_cons_of_mem l hl'))
        obtain ⟨i, hget, _⟩ := (mem_columnOf gs cy mr l' w).mp hwc
        rw [hlk'] at hget
        simp only [Option.getD_some] at hget
        have hx' : x ∈ ns' := by
          rw [← hfst]
          exact List.mem_iff_getElem?.mpr ⟨i, hget⟩
        have hcl : lookupA levels x = some l := (hg.2 (l, ns) hm).2.2 x hx1
        have hcl' : lookupA levels x = some l' := (hg.2 (l', ns') hm').2.2 x hx'
        rw [hcl] at hcl'
        rw [Option.some_inj] at hcl'
        rw [← hcl'] at hl'
        exact hnd.1 hl'
  refine haux _ ?_ ?_
  · exact (List.perm_insertionSort _ _).nodup_iff.mpr hg.1
  · intro l hl
    exact (List.mem_insertionSort _).mp hl

/-! ## One cluster's placement -/

theorem placeCluster_spec (g : LineageGraph) (levels : List (String × Nat))
    (pc : List (String × ℚ × ℚ) × ℚ) (cluster : List String)
    (hnd : cluster.Nodup) (hne : cluster ≠ [])
    (hlk : ∀ x ∈ cluster, (lookupA levels x).isSome) :
    ∃ pc', placeCluster g levels pc cluster = some pc' ∧
      pc.2 + 210 ≤ pc'.2 ∧
      (∀ k, k ∈ pc'.1.map Prod.fst ↔ k ∈ pc.1.map Prod.fst ∨ k ∈ cluster) ∧
      ((pc.1.map Prod.fst).Nodup → (pc'.1.map Prod.fst).Nodup) ∧
      (∀ e ∈ pc'.1, e ∈ pc.1 ∨ (pc.2 ≤ e.2.2 ∧ e.2.2 ≤ pc'.2 - 210)) ∧
      ((∀ e ∈ pc.1, e.2.2 ≤ pc.2 - 210) → ValueInj pc.1 →
        ValueInj pc'.1 ∧ ∀ e ∈ pc'.1, e.2.2 ≤ pc'.2 - 210) := by
  obtain ⟨gs0, hgrp, hgood0, hmem0⟩ := groupByLevel_spec levels cluster hnd hlk
  have hgood : GoodGroups levels (sortClusterLevels g pc.1 gs0) :=
    goodGroups_sortClusterLevels g pc.1 levels gs0 hgood0
  have hmemgs : ∀ x, (∃ lv ∈ sortClusterLevels g pc.1 gs0, x ∈ lv.2) ↔ x ∈ cluster :=
    fun x => (mem_groups_sortClusterLevels g pc.1 gs0 x).trans (hmem0 x)
  have hgs0ne : gs0 ≠ [] := by
    obtain ⟨x, hx⟩ := List.exists_mem_of_ne_nil cluster hne
    obtain ⟨lv, hlv, _⟩ := (hmem0 x).mpr hx
    intro hc
    rw [hc] at hlv
    simp at hlv
  have hgsne : sortClusterLevels g pc.1 gs0 ≠ [] :=
    sortClusterLevels_ne_nil g pc.1 gs0 hgs0ne
  obtain ⟨mr, hmr, hmrle⟩ := maxRows_spec _ hgsne
  have hmr1 : 1 ≤ mr := by
    obtain ⟨lv0, hlv0⟩ := List.exists_mem_of_ne_nil _ hgsne
    have h1 : lv0.2 ≠ [] := (hgood.2 lv0 hlv0).1
    have h2 : 1 ≤ lv0.2.length := by
      cases h : lv0.2 with
      | nil => exact absurd h h1
      | cons a t => simp [h]
    exact Nat.le_trans h2 (hmrle lv0 hlv0)
  have hmr1q : (1 : ℚ) ≤ (mr : ℚ) := by exact_mod_cast hmr1
  have hpc' : placeCluster g levels pc cluster =
      some (applyWrites pc.1 (clusterWrites (sortClusterLevels g pc.1 gs0) pc.2 mr),
        pc.2 + ((mr : ℚ) - 1) * 130 + 80 + 130) := by
    unfold placeCluster
    rw [hgrp]
    show (match maxRows (sortClusterLevels g pc.1 gs0) with
      | none => none
      | some max_rows =>
        some (applyWrites pc.1 (clusterWrites (sortClusterLevels g pc.1 gs0) pc.2 max_rows),
          pc.2 + ((max_rows : ℚ) - 1) * 130 + 80 + 130)) = _
    rw [hmr]
  have hWbounds : ∀ w ∈ clusterWrites (sortClusterLevels g pc.1 gs0) pc.2 mr,
      pc.2 ≤ w.2.2 ∧ w.2.2 ≤ pc.2 + ((mr : ℚ) - 1) * 130 := by
    intro w hw
    obtain ⟨lvl, hlvl, hwc⟩ := List.mem_flatMap.mp hw
    exact columnOf_y_bounds levels _ hgood pc.2 mr lvl
      ((List.mem_insertionSort _).mp hlvl) hmrle w hwc
  refine ⟨(applyWrites pc.1 (clusterWrites (sortClusterLevels g pc.1 gs0) pc.2 mr),
      pc.2 + ((mr : ℚ) - 1) * 130 + 80 + 130), hpc', ?_, ?_, ?_, ?_, ?_⟩
  · show pc.2 + 210 ≤ pc.2 + ((mr : ℚ) - 1) * 130 + 80 + 130
    linarith
  · intro k
    show k ∈ (applyWrites pc.1 _).map Prod.fst ↔ _
    rw [mem_map_fst_applyWrites, mem_map_fst_clusterWrites levels _ hgood]
    constructor
    · rintro (h | h)
      · exact Or.inl h
      · exact Or.inr ((hmemgs k).mp h)
    · rintro (h | h)
      · exact Or.inl h
      · exact Or.inr ((hmemgs k).mpr h)
  · intro h
    exact nodup_map_fst_applyWrites _ pc.1 h
  · intro e he
    rcases mem_applyWrites_elim _ pc.1 e he with h | h
    · refine Or.inr ?_
      obtain ⟨h1, h2⟩ := hWbounds e h
      constructor
      · exact h1
      · show e.2.2 ≤ pc.2 + ((mr : ℚ) - 1) * 130 + 80 + 130 - 210
        linarith
    · exact Or.inl h
  · intro hbound hinj
    constructor
    · intro w1 hw1 w2 hw2 hk
      rcases mem_applyWrites_elim _ pc.1 w1 hw1 with h1 | h1 <;>
        rcases mem_applyWrites_elim _ pc.1 w2 hw2 with h2 | h2
      · intro hv
        exact hk (clusterWrites_value_inj levels _ hgood pc.2 mr w1 w2 h1 h2 hv)
      · intro hv
        have hy1 : pc.2 ≤ w1.2.2 := (hWbounds w1 h1).1
        have hy2 : w2.2.2 ≤ pc.2 - 210 := hbound w2 h2
        have : w1.2.2 = w2.2.2 := by rw [hv]
        linarith
      · intro hv
        have hy1 : w1.2.2 ≤ pc.2 - 210 := hbound w1 h1
        have hy2 : pc.2 ≤ w2.2.2 := (hWbounds w2 h2).1
        have : w1.2.2 = w2.2.2 := by rw [hv]
        linarith
      · exact hinj w1 h1 w2 h2 hk
    · intro e he
      rcases mem_applyWrites_elim _ pc.1 e he with h | h
      · obtain ⟨_, h2⟩ := hWbounds e h
        show e.2.2 ≤ pc.2 + ((mr : ℚ) - 1) * 130 + 80 + 130 - 210
        linarith
      · have := hbound e h
        show e.2.2 ≤ pc.2 + ((mr : ℚ) - 1) * 130 + 80 + 130 - 210
        linarith

/-! ## C4 counterexample: the re-centering uses the mid-range, not the mean -/

/-- C4 counterexample.  On `meanGraph` the returned y-coordinates are
`-170, -40, -105, 170`: their mid-range `(min + max) / 2` is 0 (that is what
the code zeroes), but their arithmetic mean is `-145/4 ≠ 0`. -/
theorem c4_counterexample_mean_not_zero :
    calculate_positions meanGraph =
        some [("db.a", 80, -170), ("db.b", 80, -40), ("db.c", 460, -105), ("db.d", 80, 170)] ∧
      (([("db.a", 80, -170), ("db.b", 80, -40), ("db.c", 460, -105),
            ("db.d", 80, 170)].map (fun w : String × ℚ × ℚ => w.2.2)).sum /
          (4 : ℚ) ≠ 0) := by
  constructor
  · with_unfolding_all decide
  · norm_num

/-! ## C5: the level-`≥1` sort keys are all zero at sort time -/

/-- C5.  On `orderGraph` the level-1 nodes are `db.y` (parents `db.a`,
`db.b`) and `db.x` (parent `db.a`).  Against the *final* positions their
mean-parent-y keys are 0 and -65: the node with the strictly larger key,
`db.y`, is placed *above* `db.x` (y = -65 < 65), so the returned layout is
not ordered by the mean y-coordinate of the positioned parents.  This happens
because the code sorts every level of a cluster *before* placing any of its
nodes, and a node's parents always belong to its own cluster, so every
level-`≥1` sort key evaluates to the 0.0 fallback and the order is the
incidental set-iteration order. -/
theorem c5_parent_mean_order_violated :
    calculate_positions orderGraph =
        some [("db.a", 80, -65), ("db.b", 80, 65), ("db.y", 460, -65), ("db.x", 460, 65)] ∧
      computeLevels orderGraph =
        some [("db.a", 0), ("db.b", 0), ("db.x", 1), ("db.y", 1)] ∧
      sortKeyFor orderGraph
          [("db.a", 80, -65), ("db.b", 80, 65), ("db.y", 460, -65), ("db.x", 460, 65)]
          ("db.y") =
        0 ∧
      sortKeyFor orderGraph
          [("db.a", 80, -65), ("db.b", 80, 65), ("db.y", 460, -65), ("db.x", 460, 65)]
          ("db.x") =
        -65 := by
  refine ⟨by with_unfolding_all decide, by decide, ?_, ?_⟩
  · with_unfolding_all decide
  · with_unfolding_all decide

/-! ## C7: the two BFS passes share the visited set -/

/-- C7.  In `sharedVisitedGraph`, `db.u` is backward-reachable from `db.s`
(via the edges `db.u → db.a → db.s`), so the claim requires it in the result;
but `db.a` is discovered by the *forward* pass (edge `db.s → db.a`), and the
upstream pass skips neighbours already in the shared `connected` set, so the
traversal never reaches `db.u`: the function returns only
`{db.s, db.a}`. -/
theorem c7_backward_reachable_node_missed :
    get_connected_subgraph sharedVisitedGraph ("db.s") = some ["db.s", "db.a"] ∧
      ("db.u") ∉ ["db.s", "db.a"] ∧
      (⟨"db.u", "db.a", "m"⟩ : LineageEdge) ∈ sharedVisitedGraph.edges ∧
      (⟨"db.a", "db.s", "m"⟩ : LineageEdge) ∈ sharedVisitedGraph.edges := by
  refine ⟨by decide, by decide, by decide, by decide⟩

/-! ## The fold over the sorted clusters -/

theorem placeFold_spec (g : LineageGraph) (levels : List (String × Nat)) :
    ∀ (cls : List (List String)) (pc : List (String × ℚ × ℚ) × ℚ),
      (∀ c ∈ cls, c.Nodup ∧ c ≠ [] ∧ ∀ x ∈ c, (lookupA levels x).isSome) →
      (∀ e ∈ pc.1, e.2.2 ≤ pc.2 - 210) → ValueInj pc.1 → (pc.1.map Prod.fst).Nodup →
      ∃ pc', cls.foldl (placeStep g levels) (some pc) = some pc' ∧
        (∀ k, k ∈ pc'.1.map Prod.fst ↔ k ∈ pc.1.map Prod.fst ∨ ∃ c ∈ cls, k ∈ c) ∧
        (pc'.1.map Prod.fst).Nodup ∧ ValueInj pc'.1 ∧
        ∀ e ∈ pc'.1, e.2.2 ≤ pc'.2 - 210 := by
  intro cls
  induction cls with
  | nil =>
    intro pc _ hb hinj hnd
    exact ⟨pc, rfl, by simp, hnd, hinj, hb⟩
  | cons c cls ih =>
    intro pc hcls hb hinj hnd
    obtain ⟨hcnd, hcne, hclk⟩ := hcls c (by simp)
    obtain ⟨pc1, hpc1, _, hkeys1, hnd1, _, hinjb1⟩ :=
      placeCluster_spec g levels pc c hcnd hcne hclk
    obtain ⟨hinj1, hb1⟩ := hinjb1 hb hinj
    obtain ⟨pc', hfold, hkeys', hnd', hinj', hb'⟩ := ih pc1
      (fun c' hc' => hcls c' (List.mem_cons_of_mem _ hc')) hb1 hinj1 (hnd1 hnd)
    have hstep : placeStep g levels (some pc) c = some pc1 := by
      simp [placeStep, hpc1]
    refine ⟨pc', ?_, ?_, hnd', hinj', hb'⟩
    · rw [List.foldl_cons, hstep]
      exact hfold
    · intro k
      rw [hkeys' k, hkeys1 k]
      constructor
      · rintro ((h | h) | ⟨c', hc', hk⟩)
        · exact Or.inl h
        · exact Or.inr ⟨c, by simp, h⟩
        · exact Or.inr ⟨c', List.mem_cons_of_mem _ hc', hk⟩
      · rintro (h | ⟨c', hc', hk⟩)
        · exact Or.inl (Or.inl h)
        · rcases List.mem_cons.mp hc' with heq | h'
          · subst heq
            exact Or.inl (Or.inr hk)
          · exact Or.inr ⟨c', h', hk⟩

/-! ## From `allIds` back to node keys on a well-formed graph -/

theorem mem_nodeKeys_of_mem_allIds (g : LineageGraph) (hwf : WellFormed g) (x : String)
    (hx : x ∈ allIds g) : x ∈ nodeKeys g := by
  unfold allIds at hx
  rw [List.mem_dedup, List.mem_append] at hx
  rcases hx with h | h
  · exact h
  · rw [List.mem_append] at h
    rcases h with h | h
    · obtain ⟨e, he, heq⟩ := List.mem_map.mp h
      rw [← heq]
      exact (hwf.2 e he).1
    · obtain ⟨e, he, heq⟩ := List.mem_map.mp h
      rw [← heq]
      exact (hwf.2 e he).2

/-! ## Shifting every y-coordinate by a constant -/

theorem foldl_min_map_sub (c : ℚ) :
    ∀ (ys : List ℚ) (y0 : ℚ),
      (ys.map (fun y => y - c)).foldl min (y0 - c) = ys.foldl min y0 - c := by
  intro ys
  induction ys with
  | nil => intro y0; rfl
  | cons a t ih =>
    intro y0
    simp only [List.map_cons, List.foldl_cons]
    rw [min_sub_sub_right]
    exact ih _

theorem foldl_max_map_sub (c : ℚ) :
    ∀ (ys : List ℚ) (y0 : ℚ),
      (ys.map (fun y => y - c)).foldl max (y0 - c) = ys.foldl max y0 - c := by
  intro ys
  induction ys with
  | nil => intro y0; rfl
  | cons a t ih =>
    intro y0
    simp only [List.map_cons, List.foldl_cons]
    rw [max_sub_sub_right]
    exact ih _

/-! ## The full `calculate_positions` pipeline -/

theorem calculate_positions_spec (g : LineageGraph) (hwf : WellFormed g) :
    ∃ ps, calculate_positions g = some ps ∧
      (∀ k, k ∈ ps.map Prod.fst ↔ k ∈ nodeKeys g) ∧
      (ps.map Prod.fst).Nodup ∧ ValueInj ps ∧
      (g.nodes ≠ [] → ∃ y0 ys, ps.map (fun w => w.2.2) = y0 :: ys ∧
        ys.foldl min y0 + ys.foldl max y0 = 0) := by
  by_cases hnil : g.nodes = []
  · refine ⟨[], ?_, ?_, by simp, ?_, fun h => absurd hnil h⟩
    · unfold calculate_positions
      rw [hnil]
      rfl
    · intro k
      simp [nodeKeys, hnil]
    · intro w hw
      simp at hw
  · obtain ⟨levels, hlev, hcov⟩ := computeLevels_spec g
    obtain ⟨cls, hcls, hclprops, hclcov⟩ := find_clusters_spec g
    have hlk : ∀ x, x ∈ nodeKeys g → (lookupA levels x).isSome := by
      intro x hx
      exact (lookupA_isSome_iff levels x).mpr (hcov x hx)
    have hscl : ∀ c ∈ List.insertionSort (fun c1 c2 => clusterKey c1 ≤ clusterKey c2) cls,
        c.Nodup ∧ c ≠ [] ∧ ∀ x ∈ c, (lookupA levels x).isSome := by
      intro c hc
      obtain ⟨h1, h2, h3⟩ := hclprops c ((List.mem_insertionSort _).mp hc)
      refine ⟨h1, h2, ?_⟩
      intro x hx
      exact hlk x (mem_nodeKeys_of_mem_allIds g hwf x (h3 x hx))
    obtain ⟨pc', hfold, hkeys, hnd, hinj, _⟩ := placeFold_spec g levels
      (List.insertionSort (fun c1 c2 => clusterKey c1 ≤ clusterKey c2) cls)
      (([] : List (String × ℚ × ℚ)), (0 : ℚ)) hscl
      (by intro e he; simp at he) (by intro w hw; simp at hw) (by simp)
    have hkeys' : ∀ k, k ∈ pc'.1.map Prod.fst ↔ k ∈ nodeKeys g := by
      intro k
      rw [hkeys k]
      simp only [List.map_nil, List.not_mem_nil, false_or]
      constructor
      · rintro ⟨c, hc, hk⟩
        obtain ⟨_, _, h3⟩ := hclprops c ((List.mem_insertionSort _).mp hc)
        exact mem_nodeKeys_of_mem_allIds g hwf k (h3 k hk)
      · intro h
        obtain ⟨c, hc, hk⟩ := hclcov k h
        exact ⟨c, (List.mem_insertionSort _).mpr hc, hk⟩
    have hEmp : g.nodes.isEmpty = false := by
      cases hn : g.nodes with
      | nil => exact absurd hn hnil
      | cons p t => rfl
    have hne' : pc'.1 ≠ [] := by
      cases hn : g.nodes with
      | nil => exact absurd hn hnil
      | cons p t =>
        have hkmem : p.1 ∈ nodeKeys g := by
          unfold nodeKeys
          rw [hn]
          simp
        have := (hkeys' p.1).mpr hkmem
        intro hc
        rw [hc] at this
        simp at this
    cases hys : pc'.1.map (fun w => w.2.2) with
    | nil =>
      exact absurd (List.map_eq_nil_iff.mp hys) hne'
    | cons y0 ys' =>
      refine ⟨pc'.1.map
          (fun w => (w.1, w.2.1, w.2.2 - (ys'.foldl min y0 + ys'.foldl max y0) / 2)),
        ?_, ?_, ?_, ?_, ?_⟩
      · unfold calculate_positions
        rw [if_neg (by simp [hEmp]), hlev, hcls]
        show (match (List.insertionSort (fun c1 c2 => clusterKey c1 ≤ clusterKey c2)
              cls).foldl (placeStep g levels)
              (some (([] : List (String × ℚ × ℚ)), (0 : ℚ))) with
          | none => none
          | some pc =>
            match pc.1.map (fun (w : String × ℚ × ℚ) => w.2.2) with
            | [] => some pc.1
            | y :: ys =>
              some (pc.1.map
                (fun (w : String × ℚ × ℚ) =>
                  (w.1, w.2.1, w.2.2 - (ys.foldl min y + ys.foldl max y) / 2)))) = _
        rw [hfold]
        show (match pc'.1.map (fun (w : String × ℚ × ℚ) => w.2.2) with
          | [] => some pc'.1
          | y :: ys =>
            some (pc'.1.map
              (fun (w : String × ℚ × ℚ) =>
                (w.1, w.2.1, w.2.2 - (ys.foldl min y + ys.foldl max y) / 2)))) = _
        rw [hys]
      · intro k
        rw [List.map_map]
        exact hkeys' k
      · rw [List.map_map]
        exact hnd
      · intro a ha b hb hk hv
        obtain ⟨w1, hw1, heq1⟩ := List.mem_map.mp ha
        obtain ⟨w2, hw2, heq2⟩ := List.mem_map.mp hb
        have hk12 : w1.1 ≠ w2.1 := by
          rw [← heq1, ← heq2] at hk
          exact hk
        have hv12 : w1.2 = w2.2 := by
          rw [← heq1, ← heq2] at hv
          simp only [Prod.mk.injEq] at hv
          have hy : w1.2.2 = w2.2.2 := by linarith [hv.2]
          exact Prod.ext hv.1 hy
        exact hinj w1 hw1 w2 hw2 hk12 hv12
      · intro _
        refine ⟨y0 - (ys'.foldl min y0 + ys'.foldl max y0) / 2,
          ys'.map (fun y => y - (ys'.foldl min y0 + ys'.foldl max y0) / 2), ?_, ?_⟩
        · have hcomp2 : (pc'.1.map
                (fun w =>
                  (w.1, w.2.1, w.2.2 - (ys'.foldl min y0 + ys'.foldl max y0) / 2))).map
                (fun w => w.2.2) =
              (pc'.1.map (fun w => w.2.2)).map
                (fun y => y - (ys'.foldl min y0 + ys'.foldl max y0) / 2) := by
            rw [List.map_map, List.map_map]
            rfl
          rw [hcomp2, hys]
          rfl
        · rw [foldl_min_map_sub, foldl_max_map_sub]
          ring

/-! ## The claims on `calculate_positions` -/

/-- **C3**: on any well-formed graph — cycles included, since well-formedness
only requires duplicate-free node keys and edge endpoints that are node keys —
`calculate_positions` returns a result (never `none`), the returned mapping
has exactly one entry per node of the graph (its key list is duplicate-free
and holds exactly the node keys), and the empty graph yields the empty
mapping. -/
theorem c3_calculate_positions_total_one_entry_per_node (g : LineageGraph)
    (hwf : WellFormed g) :
    ∃ ps, calculate_positions g = some ps ∧
      (∀ k, k ∈ ps.map Prod.fst ↔ k ∈ nodeKeys g) ∧ (ps.map Prod.fst).Nodup ∧
      (g.nodes = [] → ps = []) := by
  obtain ⟨ps, hps, hk, hnd, _, _⟩ := calculate_positions_spec g hwf
  refine ⟨ps, hps, hk, hnd, ?_⟩
  intro h
  have hmap : ps.map Prod.fst = [] := by
    rw [List.eq_nil_iff_forall_not_mem]
    intro k hk'
    have := (hk k).mp hk'
    unfold nodeKeys at this
    rw [h] at this
    simp at this
  exact List.map_eq_nil_iff.mp hmap

theorem c3_witness_two_cycle :
    ∃ ps, calculate_positions cycleGraph = some ps ∧
      (∀ k, k ∈ ps.map Prod.fst ↔ k ∈ nodeKeys cycleGraph) ∧
      (ps.map Prod.fst).Nodup ∧ (cycleGraph.nodes = [] → ps = []) :=
  c3_calculate_positions_total_one_entry_per_node cycleGraph
    (by unfold WellFormed; exact ⟨by decide, by decide⟩)

/-- **C4 (amended)**: on any well-formed non-empty graph the layout returned
by `calculate_positions` is re-centered so that the vertical *mid-range*
`(min + max) / 2` of the y-coordinates is zero — not the arithmetic mean, as
`c4_counterexample_mean_not_zero` separates on a concrete graph. -/
theorem c4_amended_midrange_centered (g : LineageGraph) (hwf : WellFormed g)
    (hne : g.nodes ≠ []) (ps : List (String × ℚ × ℚ))
    (hps : calculate_positions g = some ps) :
    ∃ y0 ys, ps.map (fun w => w.2.2) = y0 :: ys ∧
      (ys.foldl min y0 + ys.foldl max y0) / 2 = 0 := by
  obtain ⟨ps', hps', _, _, _, hmid⟩ := calculate_positions_spec g hwf
  rw [hps, Option.some_inj] at hps'
  obtain ⟨y0, ys, hmap, hsum⟩ := hmid hne
  refine ⟨y0, ys, ?_, ?_⟩
  · rw [hps']
    exact hmap
  · rw [hsum]
    norm_num

theorem c4_amended_midrange_centered_witness :
    ∃ y0 ys,
      ([("db.a", 80, -170), ("db.b", 80, -40), ("db.c", 460, -105),
          ("db.d", 80, 170)] : List (String × ℚ × ℚ)).map (fun w => w.2.2) = y0 :: ys ∧
        (ys.foldl min y0 + ys.foldl max y0) / 2 = 0 :=
  c4_amended_midrange_centered meanGraph
    (by unfold WellFormed; exact ⟨by decide, by decide⟩) (by decide)
    [("db.a", 80, -170), ("db.b", 80, -40), ("db.c", 460, -105), ("db.d", 80, 170)]
    (by with_unfolding_all decide)

/-- **C10**: the position mapping returned by `calculate_positions` on a
well-formed graph is injective — distinct node keys never receive the same
`(x, y)` pair: within a cluster distinct levels get distinct x and a level's
nodes get distinct y, and the vertical bands of distinct clusters are
disjoint. -/
theorem c10_positions_injective (g : LineageGraph) (hwf : WellFormed g)
    (ps : List (String × ℚ × ℚ)) (hps : calculate_positions g = some ps) :
    ValueInj ps := by
  obtain ⟨ps', hps', _, _, hinj, _⟩ := calculate_positions_spec g hwf
  rw [hps, Option.some_inj] at hps'
  rw [hps']
  exact hinj

set_option maxRecDepth 8000 in
theorem c10_positions_injective_witness :
    ValueInj [("db.B", 460, 0), ("db.A", 840, 0)] :=
  c10_positions_injective cycleGraph
    (by unfold WellFormed; exact ⟨by decide, by decide⟩)
    [("db.B", 460, 0), ("db.A", 840, 0)] (by with_unfolding_all decide)

end Chview
